import Mathlib

/-!
Verification of the cross-perspective topic (CPT) Gibbs sampler
(`CPT_Gibbs.py`, class `GibbsSampler`) against its design document.

Shallow embedding conventions:
* numpy integer count tables become functions into `ℤ` (numpy `int` values
  here are small, overflow never occurs);
* probabilities are embedded in `ℚ`: numpy float division is modelled by
  exact rational division; rational division is total with `q / 0 = 0`,
  mirroring the fact that numpy division never raises (it yields `nan`/`inf`
  with a warning);
* `np.random.randint` / `np.random.rand` draws are modelled by input
  streams `g : ℕ → ℕ` (a draw for topic `K` is `g t % K`) and `u : ℕ → ℚ`,
  consumed in program order via a draw counter threaded through the state;
* the corpus (`CPTCorpus`, an external collaborator per the design) is a
  list of documents, each carrying its perspective id, its per-perspective
  opinion-document index, and its topic-word / opinion-word id sequences.
-/

/-- One document of the corpus: perspective id `persp`, index `dp` of the
document inside its perspective's opinion corpus, and the vocabulary-id
sequences of its topic words and opinion words (position `i` in the list is
the position `i` yielded by `corpus.words_in_document`). -/
structure Doc where
  persp : ℕ
  dp : ℕ
  topicWords : List ℕ
  opinionWords : List ℕ
deriving DecidableEq

/-- The corpus as seen by the sampler: number of perspectives and the global
document list (document `d` is `docs[d]`, the order of `for d, persp, d_p,
doc in self.corpus`). -/
structure Corpus where
  nPersp : ℕ
  docs : List Doc
deriving DecidableEq

def emptyDoc : Doc := ⟨0, 0, [], []⟩

/-- Document at global index `d` (out-of-range reads give the empty
document; they never occur in the program). -/
def docAt (c : Corpus) (d : ℕ) : Doc := c.docs.getD d emptyDoc

def twLen (c : Corpus) (d : ℕ) : ℕ := (docAt c d).topicWords.length

def twId (c : Corpus) (d i : ℕ) : ℕ := (docAt c d).topicWords.getD i 0

def owLen (c : Corpus) (d : ℕ) : ℕ := (docAt c d).opinionWords.length

def owId (c : Corpus) (d i : ℕ) : ℕ := (docAt c d).opinionWords.getD i 0

/-- The sampler's mutable state (`GibbsSampler._initialize` allocates these
arrays; array cells become total functions, cells never written stay `0`,
matching `np.zeros` allocation).  `ntd` is allocated as a float array in the
source but only ever holds exact small integers (`+= 1` on float is exact),
so it is embedded in `ℤ` like the other count tables. -/
structure GState where
  z : ℕ → ℕ → ℕ
  x : ℕ → ℕ → ℕ → ℕ
  ndk : ℕ → ℕ → ℤ
  nkw : ℕ → ℕ → ℤ
  nk : ℕ → ℤ
  ntd : ℕ → ℤ
  nrs : ℕ → ℕ → ℕ → ℤ
  ns : ℕ → ℕ → ℤ

attribute [ext] GState

/-- The freshly allocated state: all `np.zeros` tables. -/
def initGState : GState :=
  ⟨fun _ _ => 0, fun _ _ _ => 0, fun _ _ => 0, fun _ _ => 0,
   fun _ => 0, fun _ => 0, fun _ _ _ => 0, fun _ _ => 0⟩

/-- `f[a] += δ` on a one-dimensional table. -/
def upd1 (f : ℕ → ℤ) (a : ℕ) (δ : ℤ) : ℕ → ℤ :=
  fun a' => if a' = a then f a' + δ else f a'

/-- `f[a, b] += δ` on a two-dimensional table. -/
def upd2 (f : ℕ → ℕ → ℤ) (a b : ℕ) (δ : ℤ) : ℕ → ℕ → ℤ :=
  fun a' b' => if a' = a ∧ b' = b then f a' b' + δ else f a' b'

/-- `f[a, b, c] += δ` on a three-dimensional table. -/
def upd3 (f : ℕ → ℕ → ℕ → ℤ) (a b c : ℕ) (δ : ℤ) : ℕ → ℕ → ℕ → ℤ :=
  fun a' b' c' => if a' = a ∧ b' = b ∧ c' = c then f a' b' c' + δ else f a' b' c'

/-- `z[a, b] = v` on the topic-assignment array. -/
def setZ (f : ℕ → ℕ → ℕ) (a b v : ℕ) : ℕ → ℕ → ℕ :=
  fun a' b' => if a' = a ∧ b' = b then v else f a' b'

/-- `x[a][b, c] = v` on the opinion-assignment array. -/
def setX (f : ℕ → ℕ → ℕ → ℕ) (a b c v : ℕ) : ℕ → ℕ → ℕ → ℕ :=
  fun a' b' c' => if a' = a ∧ b' = b ∧ c' = c then v else f a' b' c'

/-- The unnormalized entry `k` of `GibbsSampler.p_z(d, w_id)`: the product
`f1[k] * f2[k]` with `f1 = (ndk[d]+alpha)/(np.sum(ndk[d])+nTopics*alpha)`
and `f2 = (nkw[:,w]+beta)/(nk+beta*VT)`. -/
def pzW (K VT : ℕ) (alpha beta : ℚ) (s : GState) (d w k : ℕ) : ℚ :=
  ((s.ndk d k + alpha) / ((∑ k' ∈ Finset.range K, (s.ndk d k' : ℚ)) + K * alpha))
    * ((s.nkw k w + beta) / (s.nk k + beta * VT))

/-- `GibbsSampler.p_z(d, w_id)`: the topic conditional `p = f1*f2`,
returned normalized as `p / np.sum(p)` (a vector of length `nTopics`). -/
def p_z (K VT : ℕ) (alpha beta : ℚ) (s : GState) (d w : ℕ) : List ℚ :=
  let v := (List.range K).map (pzW K VT alpha beta s d w)
  v.map (fun q => q / v.sum)

/-- The unnormalized entry `k` of `GibbsSampler.p_x(persp, d, w_id)`: the
product `f1[k] * f2[k]` with
`f1 = (nrs[persp,:,w]+beta_o)/(ns[persp]+beta_o*VO)` and
`f2 = ndk[d]/ntd[d]`. -/
def pxW (VO : ℕ) (beta_o : ℚ) (s : GState) (p d w k : ℕ) : ℚ :=
  ((s.nrs p k w + beta_o) / (s.ns p k + beta_o * VO))
    * ((s.ndk d k : ℚ) / (s.ntd d : ℚ))

/-- `GibbsSampler.p_x(persp, d, w_id)`: the opinion conditional `p = f1*f2`,
returned normalized as `p / np.sum(p)`. -/
def p_x (K VO : ℕ) (beta_o : ℚ) (s : GState) (p d w : ℕ) : List ℚ :=
  let v := (List.range K).map (pxW VO beta_o s p d w)
  v.map (fun q => q / v.sum)

/-- `np.cumsum`: running totals of a vector. -/
def cumsum : List ℚ → List ℚ
  | [] => []
  | a :: rest => a :: (cumsum rest).map (fun q => a + q)

/-- `np.searchsorted(a, v)` with the default side `'left'` on a sorted array
returns the left insertion point: the first index `i` with `v ≤ a[i]`, and
`len(a)` when there is none.  On the non-decreasing arrays produced by
`np.cumsum` of non-negative vectors (the only arrays this program ever
searches) the binary search coincides with this first-match scan. -/
def searchLeft : List ℚ → ℚ → ℕ
  | [], _ => 0
  | a :: rest, v => if v ≤ a then 0 else searchLeft rest v + 1

/-- `GibbsSampler.sample_from(p)`:
`np.searchsorted(np.cumsum(p), np.random.rand())`, with the uniform draw
`u` made explicit. -/
def sample_from (p : List ℚ) (u : ℚ) : ℕ := searchLeft (cumsum p) u

/-- `GibbsSampler.theta_topic()` as a matrix entry function:
`(ndk + alpha) / (np.sum(ndk, axis=1, keepdims=True) + nTopics*alpha)`. -/
def theta_topic (K : ℕ) (alpha : ℚ) (s : GState) : ℕ → ℕ → ℚ :=
  fun d k =>
    (s.ndk d k + alpha) / ((∑ k' ∈ Finset.range K, (s.ndk d k' : ℚ)) + K * alpha)

/-- `GibbsSampler.phi_topic()`:
`(nkw + beta) / (np.sum(nkw, axis=1, keepdims=True) + VT*beta)`. -/
def phi_topic (VT : ℕ) (beta : ℚ) (s : GState) : ℕ → ℕ → ℚ :=
  fun k w =>
    (s.nkw k w + beta) / ((∑ w' ∈ Finset.range VT, (s.nkw k w' : ℚ)) + VT * beta)

/-- `GibbsSampler.phi_opinion(persp)`:
`(nrs[persp] + beta_o) / (np.sum(nrs[persp], axis=1, keepdims=True) + VO*beta_o)`. -/
def phi_opinion (VO : ℕ) (beta_o : ℚ) (s : GState) (p : ℕ) : ℕ → ℕ → ℚ :=
  fun k w =>
    (s.nrs p k w + beta_o) / ((∑ w' ∈ Finset.range VO, (s.nrs p k w' : ℚ)) + VO * beta_o)

/-- Iterate `step 0`, `step 1`, ..., `step (n-1)` in order (left fold over
the index range; `iterTokens step (n+1) a` runs `step n` last). -/
def iterTokens {A : Type} (step : ℕ → A → A) : ℕ → A → A
  | 0, a => a
  | n + 1, a => step n (iterTokens step n a)

/-- One topic-word token of `GibbsSampler._initialize`: draw
`topic = np.random.randint(0, nTopics)` (modelled as `g t % K`), write
`z[d, i] = topic` and increment `ndk[d, topic]`, `nkw[topic, w_id]`,
`nk[topic]`, `ntd[d]`.  The second component is the draw counter. -/
def initTopicStep (K : ℕ) (g : ℕ → ℕ) (c : Corpus) (d i : ℕ) :
    GState × ℕ → GState × ℕ :=
  fun st =>
    let s := st.1
    let w := twId c d i
    let k := g st.2 % K
    ({ s with
        z := setZ s.z d i k
        ndk := upd2 s.ndk d k 1
        nkw := upd2 s.nkw k w 1
        nk := upd1 s.nk k 1
        ntd := upd1 s.ntd d 1 }, st.2 + 1)

/-- One opinion-word token of `GibbsSampler._initialize`: draw
`opinion = np.random.randint(0, nTopics)`, write `x[persp][d_p, i] = opinion`
and increment `nrs[persp, opinion, w_id]`, `ns[persp, opinion]`. -/
def initOpinionStep (K : ℕ) (g : ℕ → ℕ) (c : Corpus) (d i : ℕ) :
    GState × ℕ → GState × ℕ :=
  fun st =>
    let s := st.1
    let doc := docAt c d
    let w := owId c d i
    let k := g st.2 % K
    ({ s with
        x := setX s.x doc.persp doc.dp i k
        nrs := upd3 s.nrs doc.persp k w 1
        ns := upd2 s.ns doc.persp k 1 }, st.2 + 1)

/-- One document of the `_initialize` loop: all topic-word tokens in
position order, then all opinion-word tokens. -/
def initDocStep (K : ℕ) (g : ℕ → ℕ) (c : Corpus) (d : ℕ) :
    GState × ℕ → GState × ℕ :=
  fun st =>
    iterTokens (initOpinionStep K g c d) (owLen c d)
      (iterTokens (initTopicStep K g c d) (twLen c d) st)

/-- `GibbsSampler._initialize()`: allocate the zero tables and loop over the
words of the corpus, document by document. -/
def initState (K : ℕ) (g : ℕ → ℕ) (c : Corpus) : GState :=
  (iterTokens (initDocStep K g c) c.docs.length (initGState, 0)).1

/-- Removal phase of one topic-token resample (decrement the current
label's contribution to `ndk`, `nkw`, `nk`; `ntd` is untouched). -/
def removeTopic (s : GState) (d i w : ℕ) : GState :=
  let k := s.z d i
  { s with
      ndk := upd2 s.ndk d k (-1)
      nkw := upd2 s.nkw k w (-1)
      nk := upd1 s.nk k (-1) }

/-- Reinsertion phase of one topic-token resample with the new label `k`. -/
def insertTopic (s : GState) (d i w k : ℕ) : GState :=
  { s with
      z := setZ s.z d i k
      ndk := upd2 s.ndk d k 1
      nkw := upd2 s.nkw k w 1
      nk := upd1 s.nk k 1 }

/-- Modelled from the spec: one topic-word token of the sampling kernel
(`gibbs_inner`, imported from the compiled module `gibbs_inner` which is not
part of the repository sources; design §4.3 steps 1-4): decrement the
token's current label's counts, compute the topic conditional `p_z` on the
decremented state, inverse-CDF-sample a new label with the next uniform
draw, and reinsert. -/
def sweepTopicStep (K VT : ℕ) (alpha beta : ℚ) (u : ℕ → ℚ) (c : Corpus)
    (d i : ℕ) : GState × ℕ → GState × ℕ :=
  fun st =>
    let w := twId c d i
    let s1 := removeTopic st.1 d i w
    let k := sample_from (p_z K VT alpha beta s1 d w) (u st.2)
    (insertTopic s1 d i w k, st.2 + 1)

/-- Removal phase of one opinion-token resample. -/
def removeOpinion (s : GState) (p dp i w : ℕ) : GState :=
  let k := s.x p dp i
  { s with
      nrs := upd3 s.nrs p k w (-1)
      ns := upd2 s.ns p k (-1) }

/-- Reinsertion phase of one opinion-token resample with the new label `k`. -/
def insertOpinion (s : GState) (p dp i w k : ℕ) : GState :=
  { s with
      x := setX s.x p dp i k
      nrs := upd3 s.nrs p k w 1
      ns := upd2 s.ns p k 1 }

/-- Modelled from the spec: one opinion-word token of the sampling kernel
(design §4.3, `gibbs_inner` not in the sources): the same
remove / compute `p_x` / sample / reinsert cycle against `nrs`, `ns`,
`x[p]`. -/
def sweepOpinionStep (K VO : ℕ) (beta_o : ℚ) (u : ℕ → ℚ) (c : Corpus)
    (d i : ℕ) : GState × ℕ → GState × ℕ :=
  fun st =>
    let doc := docAt c d
    let w := owId c d i
    let s1 := removeOpinion st.1 doc.persp doc.dp i w
    let k := sample_from (p_x K VO beta_o s1 doc.persp d w) (u st.2)
    (insertOpinion s1 doc.persp doc.dp i w k, st.2 + 1)

/-- Modelled from the spec: the topic pass of one kernel sweep visits every
topic-word token of document `d` in position order (design §4.3). -/
def sweepTopicDoc (K VT : ℕ) (alpha beta : ℚ) (u : ℕ → ℚ) (c : Corpus)
    (d : ℕ) : GState × ℕ → GState × ℕ :=
  iterTokens (sweepTopicStep K VT alpha beta u c d) (twLen c d)

/-- Modelled from the spec: the opinion pass visits, for perspective `p`,
every opinion token of every document of that perspective (design §4.3:
"for every perspective `p`, every opinion-document `d_p` belonging to that
perspective"); documents of other perspectives are skipped. -/
def sweepOpinionDoc (K VO : ℕ) (beta_o : ℚ) (u : ℕ → ℚ) (c : Corpus)
    (p d : ℕ) : GState × ℕ → GState × ℕ :=
  fun st =>
    if (docAt c d).persp = p then
      iterTokens (sweepOpinionStep K VO beta_o u c d) (owLen c d) st
    else st

/-- Modelled from the spec: opinion pass over one perspective. -/
def sweepOpinionPersp (K VO : ℕ) (beta_o : ℚ) (u : ℕ → ℚ) (c : Corpus)
    (p : ℕ) : GState × ℕ → GState × ℕ :=
  iterTokens (sweepOpinionDoc K VO beta_o u c p) c.docs.length

/-- Modelled from the spec: one full sweep of the sampling kernel
(`gibbs_inner(self)`, design §4.3): every topic-word token of every
document, then every opinion-word token of every perspective, each visited
exactly once; the draw counter is threaded through both passes. -/
def sweep (K VT VO : ℕ) (alpha beta beta_o : ℚ) (u : ℕ → ℚ) (c : Corpus) :
    GState × ℕ → GState × ℕ :=
  fun st =>
    iterTokens (sweepOpinionPersp K VO beta_o u c) c.nPersp
      (iterTokens (sweepTopicDoc K VT alpha beta u c) c.docs.length st)

/-- State (and sweep draw counter) after `_initialize()` followed by `n`
kernel sweeps. -/
def stateAfter (K VT VO : ℕ) (alpha beta beta_o : ℚ) (c : Corpus)
    (g : ℕ → ℕ) (u : ℕ → ℚ) : ℕ → GState × ℕ
  | 0 => (initState K g c, 0)
  | n + 1 => sweep K VT VO alpha beta beta_o u c
      (stateAfter K VT VO alpha beta beta_o c g u n)

/-- Derived aggregate: number of topic-word tokens of document `d`
currently labeled `k` under assignment `z` (design §3, `ndk`). -/
def ndkOf (c : Corpus) (z : ℕ → ℕ → ℕ) (d k : ℕ) : ℤ :=
  ∑ i ∈ Finset.range (twLen c d), if z d i = k then 1 else 0

/-- Derived aggregate: number of topic-word tokens anywhere in the corpus
labeled `k` with vocabulary id `w` (design §3, `nkw`). -/
def nkwOf (c : Corpus) (z : ℕ → ℕ → ℕ) (k w : ℕ) : ℤ :=
  ∑ d ∈ Finset.range c.docs.length, ∑ i ∈ Finset.range (twLen c d),
    if z d i = k ∧ twId c d i = w then 1 else 0

/-- Derived aggregate: total topic-word tokens labeled `k` (design §3, `nk`). -/
def nkOf (c : Corpus) (z : ℕ → ℕ → ℕ) (k : ℕ) : ℤ :=
  ∑ d ∈ Finset.range c.docs.length, ndkOf c z d k

/-- Derived aggregate: total topic-word tokens of document `d` (design §3,
`ntd`). -/
def ntdOf (c : Corpus) (d : ℕ) : ℤ := (twLen c d : ℤ)

/-- Derived aggregate: number of opinion-word tokens under perspective `p`
labeled `k` with vocabulary id `w` (design §3, `nrs`). -/
def nrsOf (c : Corpus) (x : ℕ → ℕ → ℕ → ℕ) (p k w : ℕ) : ℤ :=
  ∑ d ∈ Finset.range c.docs.length,
    if (docAt c d).persp = p then
      ∑ i ∈ Finset.range (owLen c d),
        if x p (docAt c d).dp i = k ∧ owId c d i = w then 1 else 0
    else 0

/-- Derived aggregate: total opinion-word tokens under perspective `p`
labeled `k` (design §3, `ns`). -/
def nsOf (c : Corpus) (x : ℕ → ℕ → ℕ → ℕ) (p k : ℕ) : ℤ :=
  ∑ d ∈ Finset.range c.docs.length,
    if (docAt c d).persp = p then
      ∑ i ∈ Finset.range (owLen c d),
        if x p (docAt c d).dp i = k then 1 else 0
    else 0

/-- The count tables of `s` are exactly the aggregates derived from the
assignment arrays `s.z`, `s.x` over corpus `c` (design §3: "all count
tables are strict derived aggregates of the assignment arrays"). -/
def Consistent (c : Corpus) (s : GState) : Prop :=
  (∀ d k, s.ndk d k = ndkOf c s.z d k) ∧
  (∀ k w, s.nkw k w = nkwOf c s.z k w) ∧
  (∀ k, s.nk k = nkOf c s.z k) ∧
  (∀ d, s.ntd d = ntdOf c d) ∧
  (∀ p k w, s.nrs p k w = nrsOf c s.x p k w) ∧
  (∀ p k, s.ns p k = nsOf c s.x p k)

/-- Every stored label is a valid topic index in `[0, nTopics)`. -/
def InRange (K : ℕ) (s : GState) : Prop :=
  (∀ d i, s.z d i < K) ∧ (∀ p dp i, s.x p dp i < K)

/-- The corpus-adapter guarantees the sampler relies on (design §6, §7):
vocabulary ids lie below the vocabulary sizes, perspective ids are valid,
a document with opinion words has at least one topic word (no
degenerate-document division by `ntd[d] = 0`), and distinct documents have
distinct `(perspective, opinion-document-index)` slots in `x`. -/
def ValidCorpus (c : Corpus) (VT VO : ℕ) : Prop :=
  (∀ d, d < c.docs.length →
    (∀ w ∈ (docAt c d).topicWords, w < VT) ∧
    (∀ w ∈ (docAt c d).opinionWords, w < VO) ∧
    ((docAt c d).opinionWords ≠ [] → (docAt c d).topicWords ≠ []) ∧
    (docAt c d).persp < c.nPersp) ∧
  (∀ d1 d2, d1 < c.docs.length → d2 < c.docs.length → d1 ≠ d2 →
    ((docAt c d1).persp ≠ (docAt c d2).persp ∨ (docAt c d1).dp ≠ (docAt c d2).dp))

/-- `p_z` in state-passing form: the method reads `self.ndk`, `self.nkw`,
`self.nk` and builds fresh temporaries; it assigns no field of `self`, so
its embedding returns the state unchanged next to its value. -/
def p_z_op (K VT : ℕ) (alpha beta : ℚ) (s : GState) (d w : ℕ) :
    GState × List ℚ := (s, p_z K VT alpha beta s d w)

/-- `p_x` in state-passing form (no field of `self` is assigned). -/
def p_x_op (K VO : ℕ) (beta_o : ℚ) (s : GState) (p d w : ℕ) :
    GState × List ℚ := (s, p_x K VO beta_o s p d w)

/-- `sample_from` in state-passing form (no field of `self` is assigned). -/
def sample_from_op (s : GState) (p : List ℚ) (u : ℚ) : GState × ℕ :=
  (s, sample_from p u)

/-- `theta_topic` in state-passing form (no field of `self` is assigned). -/
def theta_topic_op (K : ℕ) (alpha : ℚ) (s : GState) :
    GState × (ℕ → ℕ → ℚ) := (s, theta_topic K alpha s)

/-- `phi_topic` in state-passing form (no field of `self` is assigned). -/
def phi_topic_op (VT : ℕ) (beta : ℚ) (s : GState) :
    GState × (ℕ → ℕ → ℚ) := (s, phi_topic VT beta s)

/-- `phi_opinion` in state-passing form (no field of `self` is assigned). -/
def phi_opinion_op (VO : ℕ) (beta_o : ℚ) (s : GState) (p : ℕ) :
    GState × (ℕ → ℕ → ℚ) := (s, phi_opinion VO beta_o s p)

/-- A dense parameter table (`theta`, `phi_topic`, or one `phi_opinion`)
as an entry function. -/
abbrev Mat : Type := ℕ → ℕ → ℚ

/-- `np.mean(stack, axis=0)` over `n` per-iteration snapshots. -/
def meanMat (n : ℕ) (f : ℕ → Mat) : Mat :=
  fun i j => (∑ t ∈ Finset.range n, f t i j) / (n : ℚ)

/-- Snapshot of `theta_topic` taken at the end of run iteration `t`
(after `t + 1` kernel sweeps). -/
def thetaSnap (K VT VO : ℕ) (alpha beta beta_o : ℚ) (c : Corpus)
    (g : ℕ → ℕ) (u : ℕ → ℚ) (t : ℕ) : Mat :=
  theta_topic K alpha (stateAfter K VT VO alpha beta beta_o c g u (t + 1)).1

/-- Snapshot of `phi_topic` at the end of run iteration `t`. -/
def phiTopicSnap (K VT VO : ℕ) (alpha beta beta_o : ℚ) (c : Corpus)
    (g : ℕ → ℕ) (u : ℕ → ℚ) (t : ℕ) : Mat :=
  phi_topic VT beta (stateAfter K VT VO alpha beta beta_o c g u (t + 1)).1

/-- Snapshot of `phi_opinion(p)` at the end of run iteration `t`. -/
def phiOpinionSnap (K VT VO : ℕ) (alpha beta beta_o : ℚ) (c : Corpus)
    (g : ℕ → ℕ) (u : ℕ → ℚ) (p t : ℕ) : Mat :=
  phi_opinion VO beta_o (stateAfter K VT VO alpha beta beta_o c g u (t + 1)).1 p

/-- In-memory mode of `GibbsSampler.run` (`out_dir` unset): `theta` result,
the element-wise `np.mean` over the `nIter` retained snapshots. -/
def runMemTheta (K VT VO : ℕ) (alpha beta beta_o : ℚ) (c : Corpus)
    (g : ℕ → ℕ) (u : ℕ → ℚ) (nIter : ℕ) : Mat :=
  meanMat nIter (thetaSnap K VT VO alpha beta beta_o c g u)

/-- In-memory mode of `run`: `phi_topic` result. -/
def runMemPhiTopic (K VT VO : ℕ) (alpha beta beta_o : ℚ) (c : Corpus)
    (g : ℕ → ℕ) (u : ℕ → ℚ) (nIter : ℕ) : Mat :=
  meanMat nIter (phiTopicSnap K VT VO alpha beta beta_o c g u)

/-- In-memory mode of `run`: `phi_opinion[p]` result. -/
def runMemPhiOpinion (K VT VO : ℕ) (alpha beta beta_o : ℚ) (c : Corpus)
    (g : ℕ → ℕ) (u : ℕ → ℚ) (nIter p : ℕ) : Mat :=
  meanMat nIter (fun t => phiOpinionSnap K VT VO alpha beta beta_o c g u p t)

/-- Modelled from the spec: a parameter name of the persisted-snapshot
store (design §6: snapshots are keyed by "(iteration,
parameter-name[, perspective-index])"; in the source the name is the CSV
file-name stem `theta` / `phi_topic` / `phi_opinion_{p}`). -/
inductive ParamName : Type where
  | theta : ParamName
  | phiTopic : ParamName
  | phiOpinion : ℕ → ParamName
deriving DecidableEq

/-- Modelled from the spec: the persisted-snapshot store (design §6).  The
source writes each snapshot with `pandas.DataFrame.to_csv` into
`parameter_samples/` and reads it back with `pandas.read_csv`; the files
live outside the program, so the store is modelled as an exact keyed
write-once sequence: a list of `(key, table)` writes in program order. -/
abbrev Store : Type := List ((ParamName × ℕ) × Mat)

/-- Keyed read from the store (first write wins; the run writes each key
exactly once). A missing key reads as the zero table. -/
def readStore (st : Store) (key : ParamName × ℕ) : Mat :=
  match st.find? (fun e => decide (e.1 = key)) with
  | some e => e.2
  | none => fun _ _ => 0

/-- The writes of one iteration of `run` in persisted mode (`out_dir` set):
`theta_{t}.csv`, `phi_topic_{t}.csv`, then `phi_opinion_{p}_{t}.csv` for
each perspective `p` in order. -/
def iterWrites (K VT VO : ℕ) (alpha beta beta_o : ℚ) (c : Corpus)
    (g : ℕ → ℕ) (u : ℕ → ℚ) (t : ℕ) : Store :=
  ((ParamName.theta, t), thetaSnap K VT VO alpha beta beta_o c g u t) ::
  ((ParamName.phiTopic, t), phiTopicSnap K VT VO alpha beta beta_o c g u t) ::
  (List.range c.nPersp).map
    (fun p => ((ParamName.phiOpinion p, t),
               phiOpinionSnap K VT VO alpha beta beta_o c g u p t))

/-- The store contents after the first `n` iterations of `run` in persisted
mode (writes appended in program order). -/
def persistedStore (K VT VO : ℕ) (alpha beta beta_o : ℚ) (c : Corpus)
    (g : ℕ → ℕ) (u : ℕ → ℚ) : ℕ → Store
  | 0 => []
  | n + 1 => persistedStore K VT VO alpha beta beta_o c g u n ++
      iterWrites K VT VO alpha beta beta_o c g u n

/-- `GibbsSampler.load_parameters(name)`: read the `nIter` per-iteration
tables for `name` back from the store and return their element-wise
`np.mean` over the iteration axis. -/
def load_parameters (st : Store) (nIter : ℕ) (name : ParamName) : Mat :=
  meanMat nIter (fun t => readStore st (name, t))

/-- Persisted mode of `run` (`out_dir` set): `theta` result, read back from
the per-iteration snapshot files. -/
def runPersistTheta (K VT VO : ℕ) (alpha beta beta_o : ℚ) (c : Corpus)
    (g : ℕ → ℕ) (u : ℕ → ℚ) (nIter : ℕ) : Mat :=
  load_parameters (persistedStore K VT VO alpha beta beta_o c g u nIter)
    nIter ParamName.theta

/-- Persisted mode of `run`: `phi_topic` result. -/
def runPersistPhiTopic (K VT VO : ℕ) (alpha beta beta_o : ℚ) (c : Corpus)
    (g : ℕ → ℕ) (u : ℕ → ℚ) (nIter : ℕ) : Mat :=
  load_parameters (persistedStore K VT VO alpha beta beta_o c g u nIter)
    nIter ParamName.phiTopic

/-- Persisted mode of `run`: `phi_opinion[p]` result. -/
def runPersistPhiOpinion (K VT VO : ℕ) (alpha beta beta_o : ℚ) (c : Corpus)
    (g : ℕ → ℕ) (u : ℕ → ℚ) (nIter p : ℕ) : Mat :=
  load_parameters (persistedStore K VT VO alpha beta beta_o c g u nIter)
    nIter (ParamName.phiOpinion p)

/-- `_initialize()` followed by one kernel sweep (the configuration of the
determinism property, design §4.3/§8). -/
def initAndSweep (K VT VO : ℕ) (alpha beta beta_o : ℚ) (c : Corpus)
    (g : ℕ → ℕ) (u : ℕ → ℚ) : GState × ℕ :=
  sweep K VT VO alpha beta beta_o u c (initState K g c, 0)

/-- Concrete one-document corpus used to exercise the sampler: one
perspective, one document with one topic word (id 0) and one opinion word
(id 0). -/
def witDoc : Doc := ⟨0, 0, [0], [0]⟩

/-- Concrete corpus fixture built from `witDoc`. -/
def witCorpus : Corpus := ⟨1, [witDoc]⟩

/-- Concrete state fixture: one topic-word token in document 0 labeled
topic 0 (so `ndk[0][0] = ntd[0] = 1`), all other tables zero. -/
def witState : GState :=
  { initGState with
      ndk := fun d k => if d = 0 ∧ k = 0 then 1 else 0
      ntd := fun d => if d = 0 then 1 else 0 }

/-- Constant integer draw stream (every `randint` draw is 0). -/
def gConst : ℕ → ℕ := fun _ => 0

/-- Constant uniform draw stream (every `rand` draw is 1/2). -/
def uHalf : ℕ → ℚ := fun _ => (1 : ℚ) / 2

/-- `doc` with only its first `n` topic words and no opinion words
(processing front of the initialization loop). -/
def docT (doc : Doc) (n : ℕ) : Doc :=
  ⟨doc.persp, doc.dp, doc.topicWords.take n, []⟩

/-- `doc` with all its topic words and only its first `n` opinion words. -/
def docO (doc : Doc) (n : ℕ) : Doc :=
  ⟨doc.persp, doc.dp, doc.topicWords, doc.opinionWords.take n⟩

/-- The first `m` documents of `c` followed by the partially processed
document `dm`. -/
def truncAt (c : Corpus) (m : ℕ) (dm : Doc) : Corpus :=
  ⟨c.nPersp, c.docs.take m ++ [dm]⟩

/-- The corpus restricted to its first `m` documents. -/
def trunc (c : Corpus) (m : ℕ) : Corpus := ⟨c.nPersp, c.docs.take m⟩

/-! ### Generic helper lemmas -/

theorem iterTokens_ind {A : Type} (P : ℕ → A → Prop) (step : ℕ → A → A)
    (N : ℕ) (h : ∀ n a, n < N → P n a → P (n + 1) (step n a)) :
    ∀ a, P 0 a → P N (iterTokens step N a) := by
  induction N with
  | zero => intro a ha; exact ha
  | succ n ih =>
      intro a ha
      exact h n _ (Nat.lt_succ_self n)
        (ih (fun m b hm => h m b (Nat.lt_succ_of_lt hm)) a ha)

theorem iterTokens_inv {A : Type} (Q : A → Prop) (step : ℕ → A → A)
    (N : ℕ) (h : ∀ n a, n < N → Q a → Q (step n a)) :
    ∀ a, Q a → Q (iterTokens step N a) :=
  iterTokens_ind (fun _ a => Q a) step N h

theorem sum_update_point {M : Type} [AddCommGroup M] (n i : ℕ) (hi : i < n)
    (f f' : ℕ → M) (h : ∀ j, j ≠ i → f' j = f j) :
    ∑ j ∈ Finset.range n, f' j =
      ∑ j ∈ Finset.range n, f j - f i + f' i := by
  have hmem : i ∈ Finset.range n := Finset.mem_range.mpr hi
  have h1 : ∑ j ∈ Finset.range n, f' j =
      (∑ j ∈ (Finset.range n).erase i, f' j) + f' i :=
    (Finset.sum_erase_add _ _ hmem).symm
  have h2 : ∑ j ∈ Finset.range n, f j =
      (∑ j ∈ (Finset.range n).erase i, f j) + f i :=
    (Finset.sum_erase_add _ _ hmem).symm
  have h3 : ∑ j ∈ (Finset.range n).erase i, f' j =
      ∑ j ∈ (Finset.range n).erase i, f j :=
    Finset.sum_congr rfl (fun j hj => h j (Finset.ne_of_mem_erase hj))
  rw [h1, h3, h2]
  abel

theorem sum_map_range (n : ℕ) (f : ℕ → ℚ) :
    ((List.range n).map f).sum = ∑ i ∈ Finset.range n, f i := by
  induction n with
  | zero => simp
  | succ m ih =>
      rw [List.range_succ, List.map_append, List.sum_append,
        Finset.sum_range_succ, ih]
      simp

theorem sum_map_div (l : List ℚ) (q : ℚ) :
    (l.map (fun a => a / q)).sum = l.sum / q := by
  induction l with
  | nil => simp
  | cons a rest ih => simp [ih, add_div]

theorem getD_map_range (n k : ℕ) (f : ℕ → ℚ) (hk : k < n) :
    (((List.range n).map f).getD k 0) = f k := by
  rw [List.getD_eq_getElem?_getD, List.getElem?_map, List.getElem?_range hk]
  rfl

theorem length_cumsum (l : List ℚ) : (cumsum l).length = l.length := by
  induction l with
  | nil => rfl
  | cons a rest ih => simp [cumsum, ih]

theorem sum_mem_cumsum (l : List ℚ) (hl : l ≠ []) : l.sum ∈ cumsum l := by
  induction l with
  | nil => exact absurd rfl hl
  | cons a rest ih =>
      by_cases hr : rest = []
      · subst hr; simp [cumsum]
      · have : a + rest.sum ∈ (cumsum rest).map (fun q => a + q) :=
          List.mem_map.mpr ⟨rest.sum, ih hr, rfl⟩
        simpa [cumsum] using Or.inr this

theorem searchLeft_le_length (a : List ℚ) (v : ℚ) :
    searchLeft a v ≤ a.length := by
  induction a with
  | nil => exact Nat.le_refl 0
  | cons q rest ih =>
      by_cases h : v ≤ q
      · simp [searchLeft, h]
      · simpa [searchLeft, h] using Nat.succ_le_succ ih

theorem searchLeft_lt_length (a : List ℚ) (v : ℚ)
    (h : ∃ y ∈ a, v ≤ y) : searchLeft a v < a.length := by
  induction a with
  | nil => rcases h with ⟨y, hy, _⟩; exact absurd hy (List.not_mem_nil y)
  | cons q rest ih =>
      by_cases hq : v ≤ q
      · simp [searchLeft, hq]
      · rcases h with ⟨y, hy, hvy⟩
        rcases List.mem_cons.mp hy with rfl | hy'
        · exact absurd hvy hq
        · simp only [searchLeft, if_neg hq, List.length_cons]
          exact Nat.succ_lt_succ (ih ⟨y, hy', hvy⟩)

theorem searchLeft_found (a : List ℚ) (v : ℚ)
    (h : searchLeft a v < a.length) : v ≤ a.getD (searchLeft a v) 0 := by
  induction a with
  | nil => simp at h
  | cons q rest ih =>
      by_cases hq : v ≤ q
      · simp [searchLeft, hq]
      · have h' : searchLeft rest v < rest.length := by
          simpa [searchLeft, hq, Nat.succ_lt_succ_iff] using h
        simpa [searchLeft, hq] using ih h'

theorem searchLeft_min (a : List ℚ) (v : ℚ) :
    ∀ j < searchLeft a v, a.getD j 0 < v := by
  induction a with
  | nil => intro j hj; simp [searchLeft] at hj
  | cons q rest ih =>
      intro j hj
      by_cases hq : v ≤ q
      · simp [searchLeft, hq] at hj
      · rw [searchLeft] at hj
        simp only [if_neg hq] at hj
        cases j with
        | zero => simpa using lt_of_not_le hq
        | succ m =>
            have := ih m (Nat.lt_of_succ_lt_succ hj)
            simpa using this

theorem sample_from_lt_length (p : List ℚ) (u : ℚ) (hne : p ≠ [])
    (hu : u ≤ p.sum) : sample_from p u < p.length := by
  rw [sample_from, ← length_cumsum]
  exact searchLeft_lt_length _ _ ⟨p.sum, sum_mem_cumsum p hne, hu⟩

/-! ### The normalized conditionals as explicit maps -/

theorem p_z_eq_map (K VT : ℕ) (alpha beta : ℚ) (s : GState) (d w : ℕ) :
    p_z K VT alpha beta s d w =
      (List.range K).map
        (fun k => pzW K VT alpha beta s d w k /
          ∑ k' ∈ Finset.range K, pzW K VT alpha beta s d w k') := by
  simp only [p_z, List.map_map, sum_map_range]
  rfl

theorem p_x_eq_map (K VO : ℕ) (beta_o : ℚ) (s : GState) (p d w : ℕ) :
    p_x K VO beta_o s p d w =
      (List.range K).map
        (fun k => pxW VO beta_o s p d w k /
          ∑ k' ∈ Finset.range K, pxW VO beta_o s p d w k') := by
  simp only [p_x, List.map_map, sum_map_range]
  rfl

theorem p_z_length (K VT : ℕ) (alpha beta : ℚ) (s : GState) (d w : ℕ) :
    (p_z K VT alpha beta s d w).length = K := by
  rw [p_z_eq_map]; simp

theorem p_x_length (K VO : ℕ) (beta_o : ℚ) (s : GState) (p d w : ℕ) :
    (p_x K VO beta_o s p d w).length = K := by
  rw [p_x_eq_map]; simp

theorem p_z_getD (K VT : ℕ) (alpha beta : ℚ) (s : GState) (d w k : ℕ)
    (hk : k < K) :
    (p_z K VT alpha beta s d w).getD k 0 =
      pzW K VT alpha beta s d w k /
        ∑ k' ∈ Finset.range K, pzW K VT alpha beta s d w k' := by
  rw [p_z_eq_map]; exact getD_map_range K k _ hk

theorem p_x_getD (K VO : ℕ) (beta_o : ℚ) (s : GState) (p d w k : ℕ)
    (hk : k < K) :
    (p_x K VO beta_o s p d w).getD k 0 =
      pxW VO beta_o s p d w k /
        ∑ k' ∈ Finset.range K, pxW VO beta_o s p d w k' := by
  rw [p_x_eq_map]; exact getD_map_range K k _ hk

theorem p_z_sum (K VT : ℕ) (alpha beta : ℚ) (s : GState) (d w : ℕ)
    (h : (∑ k' ∈ Finset.range K, pzW K VT alpha beta s d w k') ≠ 0) :
    (p_z K VT alpha beta s d w).sum = 1 := by
  rw [p_z_eq_map]
  have : ((List.range K).map
      (fun k => pzW K VT alpha beta s d w k /
        ∑ k' ∈ Finset.range K, pzW K VT alpha beta s d w k')) =
      ((List.range K).map (pzW K VT alpha beta s d w)).map
        (fun q => q / ∑ k' ∈ Finset.range K, pzW K VT alpha beta s d w k') := by
    rw [List.map_map]; rfl
  rw [this, sum_map_div, sum_map_range]
  exact div_self h

theorem p_x_sum (K VO : ℕ) (beta_o : ℚ) (s : GState) (p d w : ℕ)
    (h : (∑ k' ∈ Finset.range K, pxW VO beta_o s p d w k') ≠ 0) :
    (p_x K VO beta_o s p d w).sum = 1 := by
  rw [p_x_eq_map]
  have : ((List.range K).map
      (fun k => pxW VO beta_o s p d w k /
        ∑ k' ∈ Finset.range K, pxW VO beta_o s p d w k')) =
      ((List.range K).map (pxW VO beta_o s p d w)).map
        (fun q => q / ∑ k' ∈ Finset.range K, pxW VO beta_o s p d w k') := by
    rw [List.map_map]; rfl
  rw [this, sum_map_div, sum_map_range]
  exact div_self h

/-! ### Positivity of the unnormalized conditionals -/

theorem pzW_pos (K VT : ℕ) (alpha beta : ℚ) (s : GState) (d w k : ℕ)
    (hK : 0 < K) (hVT : 0 < VT) (ha : 0 < alpha) (hb : 0 < beta)
    (hk : k < K) (hndk : ∀ k', k' < K → 0 ≤ s.ndk d k')
    (hnkw : 0 ≤ s.nkw k w) (hnk : 0 ≤ s.nk k) :
    0 < pzW K VT alpha beta s d w k := by
  have hrow : (0:ℚ) ≤ ∑ k' ∈ Finset.range K, (s.ndk d k' : ℚ) :=
    Finset.sum_nonneg (fun k' hk' => by
      exact_mod_cast hndk k' (Finset.mem_range.mp hk'))
  have hKA : (0:ℚ) < (K:ℚ) * alpha :=
    mul_pos (by exact_mod_cast hK) ha
  have h1 : 0 < (s.ndk d k + alpha : ℚ) / ((∑ k' ∈ Finset.range K, (s.ndk d k' : ℚ)) + K * alpha) := by
    apply div_pos
    · have : (0:ℚ) ≤ (s.ndk d k : ℚ) := by exact_mod_cast hndk k hk
      linarith
    · linarith
  have h2 : 0 < (s.nkw k w + beta : ℚ) / (s.nk k + beta * VT) := by
    apply div_pos
    · have : (0:ℚ) ≤ (s.nkw k w : ℚ) := by exact_mod_cast hnkw
      linarith
    · have h3 : (0:ℚ) ≤ (s.nk k : ℚ) := by exact_mod_cast hnk
      have h4 : (0:ℚ) < beta * VT := mul_pos hb (by exact_mod_cast hVT)
      linarith
  exact mul_pos h1 h2

theorem pzW_sum_pos (K VT : ℕ) (alpha beta : ℚ) (s : GState) (d w : ℕ)
    (hK : 0 < K) (hVT : 0 < VT) (ha : 0 < alpha) (hb : 0 < beta)
    (hndk : ∀ k', k' < K → 0 ≤ s.ndk d k')
    (hnkw : ∀ k', k' < K → 0 ≤ s.nkw k' w)
    (hnk : ∀ k', k' < K → 0 ≤ s.nk k') :
    0 < ∑ k' ∈ Finset.range K, pzW K VT alpha beta s d w k' := by
  apply Finset.sum_pos
  · intro k hk
    have hk' := Finset.mem_range.mp hk
    exact pzW_pos K VT alpha beta s d w k hK hVT ha hb hk' hndk
      (hnkw k hk') (hnk k hk')
  · exact ⟨0, Finset.mem_range.mpr hK⟩

theorem pxW_nonneg (VO : ℕ) (beta_o : ℚ) (s : GState) (p d w k : ℕ)
    (hVO : 0 < VO) (hbo : 0 < beta_o)
    (hnrs : 0 ≤ s.nrs p k w) (hns : 0 ≤ s.ns p k)
    (hndk : 0 ≤ s.ndk d k) (hntd : 0 < s.ntd d) :
    0 ≤ pxW VO beta_o s p d w k := by
  apply mul_nonneg
  · apply le_of_lt
    apply div_pos
    · have : (0:ℚ) ≤ (s.nrs p k w : ℚ) := by exact_mod_cast hnrs
      linarith
    · have h3 : (0:ℚ) ≤ (s.ns p k : ℚ) := by exact_mod_cast hns
      have h4 : (0:ℚ) < beta_o * VO := mul_pos hbo (by exact_mod_cast hVO)
      linarith
  · apply div_nonneg
    · exact_mod_cast hndk
    · exact_mod_cast le_of_lt hntd

theorem pxW_pos (VO : ℕ) (beta_o : ℚ) (s : GState) (p d w k : ℕ)
    (hVO : 0 < VO) (hbo : 0 < beta_o)
    (hnrs : 0 ≤ s.nrs p k w) (hns : 0 ≤ s.ns p k)
    (hndk : 0 < s.ndk d k) (hntd : 0 < s.ntd d) :
    0 < pxW VO beta_o s p d w k := by
  apply mul_pos
  · apply div_pos
    · have : (0:ℚ) ≤ (s.nrs p k w : ℚ) := by exact_mod_cast hnrs
      linarith
    · have h3 : (0:ℚ) ≤ (s.ns p k : ℚ) := by exact_mod_cast hns
      have h4 : (0:ℚ) < beta_o * VO := mul_pos hbo (by exact_mod_cast hVO)
      linarith
  · apply div_pos
    · exact_mod_cast hndk
    · exact_mod_cast hntd

theorem pxW_sum_pos (K VO : ℕ) (beta_o : ℚ) (s : GState) (p d w : ℕ)
    (hVO : 0 < VO) (hbo : 0 < beta_o)
    (hnrs : ∀ k', k' < K → 0 ≤ s.nrs p k' w)
    (hns : ∀ k', k' < K → 0 ≤ s.ns p k')
    (hndk : ∀ k', k' < K → 0 ≤ s.ndk d k')
    (hrow : (∑ k' ∈ Finset.range K, s.ndk d k') = s.ntd d)
    (hntd : 0 < s.ntd d) :
    0 < ∑ k' ∈ Finset.range K, pxW VO beta_o s p d w k' := by
  have hex : ∃ k ∈ Finset.range K, 0 < s.ndk d k := by
    by_contra h
    push_neg at h
    have : (∑ k' ∈ Finset.range K, s.ndk d k') ≤ 0 :=
      Finset.sum_nonpos (fun k hk => h k hk)
    omega
  apply Finset.sum_pos'
  · intro k hk
    have hk' := Finset.mem_range.mp hk
    exact pxW_nonneg VO beta_o s p d w k hVO hbo (hnrs k hk')
      (hns k hk') (hndk k hk') hntd
  · rcases hex with ⟨k, hk, hpos⟩
    exact ⟨k, hk, pxW_pos VO beta_o s p d w k hVO hbo
      (hnrs k (Finset.mem_range.mp hk)) (hns k (Finset.mem_range.mp hk)) hpos hntd⟩

theorem p_z_mem_nonneg (K VT : ℕ) (alpha beta : ℚ) (s : GState) (d w : ℕ)
    (hK : 0 < K) (hVT : 0 < VT) (ha : 0 < alpha) (hb : 0 < beta)
    (hndk : ∀ k, k < K → 0 ≤ s.ndk d k)
    (hnkw : ∀ k, k < K → 0 ≤ s.nkw k w)
    (hnk : ∀ k, k < K → 0 ≤ s.nk k) :
    ∀ q ∈ p_z K VT alpha beta s d w, 0 ≤ q := by
  intro q hq
  rw [p_z_eq_map] at hq
  rcases List.mem_map.mp hq with ⟨k, hk, rfl⟩
  have hk' : k < K := List.mem_range.mp hk
  apply div_nonneg
  · exact le_of_lt (pzW_pos K VT alpha beta s d w k hK hVT ha hb hk' hndk
      (hnkw k hk') (hnk k hk'))
  · exact le_of_lt (pzW_sum_pos K VT alpha beta s d w hK hVT ha hb hndk hnkw hnk)

theorem p_x_mem_nonneg (K VO : ℕ) (beta_o : ℚ) (s : GState) (p d w : ℕ)
    (hVO : 0 < VO) (hbo : 0 < beta_o)
    (hnrs : ∀ k, k < K → 0 ≤ s.nrs p k w)
    (hns : ∀ k, k < K → 0 ≤ s.ns p k)
    (hndk : ∀ k, k < K → 0 ≤ s.ndk d k)
    (hrow : (∑ k ∈ Finset.range K, s.ndk d k) = s.ntd d)
    (hntd : 0 < s.ntd d) :
    ∀ q ∈ p_x K VO beta_o s p d w, 0 ≤ q := by
  intro q hq
  rw [p_x_eq_map] at hq
  rcases List.mem_map.mp hq with ⟨k, hk, rfl⟩
  have hk' : k < K := List.mem_range.mp hk
  apply div_nonneg
  · exact pxW_nonneg VO beta_o s p d w k hVO hbo (hnrs k hk') (hns k hk')
      (hndk k hk') hntd
  · exact le_of_lt (pxW_sum_pos K VO beta_o s p d w hVO hbo hnrs hns hndk hrow hntd)

/-- **C2.** For every state with non-negative count tables and positive
hyperparameters, and every document index `d` and topic-vocabulary id `w`,
`p_z(d, w)` returns a vector of length `nTopics` whose `k`-th entry is the
product `((ndk[d][k]+alpha)/(sum_k' ndk[d][k'] + nTopics*alpha)) *
((nkw[k][w]+beta)/(nk[k]+beta*VT))` divided by the sum of these products
(hence proportional to the product), with all entries non-negative and
summing to exactly 1 in rational arithmetic. -/
theorem C2_p_z_correct (K VT : ℕ) (alpha beta : ℚ) (s : GState) (d w : ℕ)
    (hK : 0 < K) (hVT : 0 < VT) (ha : 0 < alpha) (hb : 0 < beta)
    (hndk : ∀ k, k < K → 0 ≤ s.ndk d k)
    (hnkw : ∀ k, k < K → 0 ≤ s.nkw k w)
    (hnk : ∀ k, k < K → 0 ≤ s.nk k) :
    (p_z K VT alpha beta s d w).length = K ∧
    (∀ k, k < K → (p_z K VT alpha beta s d w).getD k 0 =
      (((s.ndk d k + alpha) / ((∑ k' ∈ Finset.range K, (s.ndk d k' : ℚ)) + K * alpha))
        * ((s.nkw k w + beta) / (s.nk k + beta * VT))) /
      (∑ k' ∈ Finset.range K,
        ((s.ndk d k' + alpha) / ((∑ k'' ∈ Finset.range K, (s.ndk d k'' : ℚ)) + K * alpha))
          * ((s.nkw k' w + beta) / (s.nk k' + beta * VT)))) ∧
    (∀ q ∈ p_z K VT alpha beta s d w, 0 ≤ q) ∧
    (p_z K VT alpha beta s d w).sum = 1 := by
  refine ⟨p_z_length K VT alpha beta s d w, ?_, ?_, ?_⟩
  · intro k hk
    simpa [pzW] using p_z_getD K VT alpha beta s d w k hk
  · exact p_z_mem_nonneg K VT alpha beta s d w hK hVT ha hb hndk hnkw hnk
  · exact p_z_sum K VT alpha beta s d w
      (ne_of_gt (pzW_sum_pos K VT alpha beta s d w hK hVT ha hb hndk hnkw hnk))

/-- Witness for C2 at `nTopics = VT = 1`, `alpha = beta = 1`, the zero
state, `d = w = 0`: the hypotheses hold and the returned vector has
length 1 and sums to 1. -/
theorem C2_p_z_correct_witness :
    (p_z 1 1 1 1 initGState 0 0).length = 1 ∧
    (p_z 1 1 1 1 initGState 0 0).sum = 1 :=
  ⟨(C2_p_z_correct 1 1 1 1 initGState 0 0 (by decide) (by decide)
      (by norm_num) (by norm_num) (fun k _ => le_refl 0) (fun k _ => le_refl 0)
      (fun k _ => le_refl 0)).1,
   (C2_p_z_correct 1 1 1 1 initGState 0 0 (by decide) (by decide)
      (by norm_num) (by norm_num) (fun k _ => le_refl 0) (fun k _ => le_refl 0)
      (fun k _ => le_refl 0)).2.2.2⟩

/-- **C3.** For every state with non-negative count tables whose document
row `ndk[d]` sums to `ntd[d] > 0` (the consistency invariant; `p_x` is
undefined when `ntd[d] = 0`, so the positivity is a hypothesis), positive
`beta_o` and valid opinion vocabulary, `p_x(p, d, w)` returns the
normalized vector whose `k`-th entry is proportional to
`((nrs[p][k][w]+beta_o)/(ns[p][k]+beta_o*VO)) * (ndk[d][k]/ntd[d])` —
the second factor being the document's topic-word proportions — with all
entries non-negative and summing to exactly 1. -/
theorem C3_p_x_correct (K VO : ℕ) (beta_o : ℚ) (s : GState) (p d w : ℕ)
    (hVO : 0 < VO) (hbo : 0 < beta_o)
    (hnrs : ∀ k, k < K → 0 ≤ s.nrs p k w)
    (hns : ∀ k, k < K → 0 ≤ s.ns p k)
    (hndk : ∀ k, k < K → 0 ≤ s.ndk d k)
    (hrow : (∑ k ∈ Finset.range K, s.ndk d k) = s.ntd d)
    (hntd : 0 < s.ntd d) :
    (p_x K VO beta_o s p d w).length = K ∧
    (∀ k, k < K → (p_x K VO beta_o s p d w).getD k 0 =
      (((s.nrs p k w + beta_o) / (s.ns p k + beta_o * VO))
        * ((s.ndk d k : ℚ) / (s.ntd d : ℚ))) /
      (∑ k' ∈ Finset.range K,
        ((s.nrs p k' w + beta_o) / (s.ns p k' + beta_o * VO))
          * ((s.ndk d k' : ℚ) / (s.ntd d : ℚ)))) ∧
    (∀ q ∈ p_x K VO beta_o s p d w, 0 ≤ q) ∧
    (p_x K VO beta_o s p d w).sum = 1 := by
  refine ⟨p_x_length K VO beta_o s p d w, ?_, ?_, ?_⟩
  · intro k hk
    simpa [pxW] using p_x_getD K VO beta_o s p d w k hk
  · exact p_x_mem_nonneg K VO beta_o s p d w hVO hbo hnrs hns hndk hrow hntd
  · exact p_x_sum K VO beta_o s p d w
      (ne_of_gt (pxW_sum_pos K VO beta_o s p d w hVO hbo hnrs hns hndk hrow hntd))

/-- Witness for C3 at `nTopics = VO = 1`, `beta_o = 1`, the fixture state
with one topic token (`ndk[0][0] = ntd[0] = 1`), `p = d = w = 0`. -/
theorem C3_p_x_correct_witness :
    (p_x 1 1 1 witState 0 0 0).length = 1 ∧
    (p_x 1 1 1 witState 0 0 0).sum = 1 :=
  ⟨(C3_p_x_correct 1 1 1 witState 0 0 0 (by decide) (by norm_num)
      (fun k _ => le_refl 0) (fun k _ => le_refl 0)
      (fun k hk => by interval_cases k; simp [witState])
      (by decide) (by decide)).1,
   (C3_p_x_correct 1 1 1 witState 0 0 0 (by decide) (by norm_num)
      (fun k _ => le_refl 0) (fun k _ => le_refl 0)
      (fun k hk => by interval_cases k; simp [witState])
      (by decide) (by decide)).2.2.2⟩

theorem sum_add_const_div (n : ℕ) (a : ℕ → ℚ) (c : ℚ)
    (h : (∑ j ∈ Finset.range n, a j) + n * c ≠ 0) :
    ∑ i ∈ Finset.range n, (a i + c) / ((∑ j ∈ Finset.range n, a j) + n * c) = 1 := by
  rw [← Finset.sum_div, Finset.sum_add_distrib, Finset.sum_const,
    Finset.card_range, nsmul_eq_mul]
  exact div_self h

theorem denom_pos (n : ℕ) (a : ℕ → ℚ) (c : ℚ) (hn : 0 < n) (hc : 0 < c)
    (ha : ∀ i, i < n → 0 ≤ a i) :
    0 < (∑ j ∈ Finset.range n, a j) + n * c := by
  have h1 : (0:ℚ) ≤ ∑ j ∈ Finset.range n, a j :=
    Finset.sum_nonneg (fun j hj => ha j (Finset.mem_range.mp hj))
  have h2 : (0:ℚ) < (n:ℚ) * c := mul_pos (by exact_mod_cast hn) hc
  linarith

/-- **C4.** For every state with non-negative count tables and positive
hyperparameters: `theta_topic` is the matrix
`(ndk[d][k]+alpha)/(sum_k' ndk[d][k']+nTopics*alpha)`, `phi_topic` is
`(nkw[k][w]+beta)/(sum_w' nkw[k][w']+VT*beta)`, `phi_opinion p` is
`(nrs[p][k][w]+beta_o)/(sum_w' nrs[p][k][w']+VO*beta_o)`, and every row of
each of the three (documents for theta, topics for the phis) sums to 1. -/
theorem C4_estimators_correct (K VT VO : ℕ) (alpha beta beta_o : ℚ)
    (s : GState) (hK : 0 < K) (hVT : 0 < VT) (hVO : 0 < VO)
    (ha : 0 < alpha) (hb : 0 < beta) (hbo : 0 < beta_o)
    (hndk : ∀ d k, 0 ≤ s.ndk d k) (hnkw : ∀ k w, 0 ≤ s.nkw k w)
    (hnrs : ∀ p k w, 0 ≤ s.nrs p k w) :
    (∀ d k, theta_topic K alpha s d k =
      (s.ndk d k + alpha) / ((∑ k' ∈ Finset.range K, (s.ndk d k' : ℚ)) + K * alpha)) ∧
    (∀ k w, phi_topic VT beta s k w =
      (s.nkw k w + beta) / ((∑ w' ∈ Finset.range VT, (s.nkw k w' : ℚ)) + VT * beta)) ∧
    (∀ p k w, phi_opinion VO beta_o s p k w =
      (s.nrs p k w + beta_o) / ((∑ w' ∈ Finset.range VO, (s.nrs p k w' : ℚ)) + VO * beta_o)) ∧
    (∀ d, ∑ k ∈ Finset.range K, theta_topic K alpha s d k = 1) ∧
    (∀ k, ∑ w ∈ Finset.range VT, phi_topic VT beta s k w = 1) ∧
    (∀ p k, ∑ w ∈ Finset.range VO, phi_opinion VO beta_o s p k w = 1) := by
  refine ⟨fun d k => rfl, fun k w => rfl, fun p k w => rfl, ?_, ?_, ?_⟩
  · intro d
    exact sum_add_const_div K (fun k => (s.ndk d k : ℚ)) alpha
      (ne_of_gt (denom_pos K _ alpha hK ha
        (fun k _ => by exact_mod_cast hndk d k)))
  · intro k
    exact sum_add_const_div VT (fun w => (s.nkw k w : ℚ)) beta
      (ne_of_gt (denom_pos VT _ beta hVT hb
        (fun w _ => by exact_mod_cast hnkw k w)))
  · intro p k
    exact sum_add_const_div VO (fun w => (s.nrs p k w : ℚ)) beta_o
      (ne_of_gt (denom_pos VO _ beta_o hVO hbo
        (fun w _ => by exact_mod_cast hnrs p k w)))

/-- Witness for C4 at `nTopics = VT = VO = 1`, unit hyperparameters, the
zero state: all three row sums evaluate to 1. -/
theorem C4_estimators_correct_witness :
    (∑ k ∈ Finset.range 1, theta_topic 1 1 initGState 0 k = 1) ∧
    (∑ w ∈ Finset.range 1, phi_topic 1 1 initGState 0 w = 1) ∧
    (∑ w ∈ Finset.range 1, phi_opinion 1 1 initGState 0 0 w = 1) :=
  ⟨(C4_estimators_correct 1 1 1 1 1 1 initGState (by decide) (by decide)
      (by decide) (by norm_num) (by norm_num) (by norm_num)
      (fun d k => le_refl 0) (fun k w => le_refl 0)
      (fun p k w => le_refl 0)).2.2.2.1 0,
   (C4_estimators_correct 1 1 1 1 1 1 initGState (by decide) (by decide)
      (by decide) (by norm_num) (by norm_num) (by norm_num)
      (fun d k => le_refl 0) (fun k w => le_refl 0)
      (fun p k w => le_refl 0)).2.2.2.2.1 0,
   (C4_estimators_correct 1 1 1 1 1 1 initGState (by decide) (by decide)
      (by decide) (by norm_num) (by norm_num) (by norm_num)
      (fun d k => le_refl 0) (fun k w => le_refl 0)
      (fun p k w => le_refl 0)).2.2.2.2.2 0 0⟩

/-- **C5 counterexample.** At `p = [1/2, 1/2]` and `u = 1/2` the code
returns index 0 (`np.searchsorted` side `'left'` picks the first cumulative
sum `≥ u`), yet the cumulative sum at index 0 equals `u = 1/2` and does not
exceed it — the smallest index whose running total strictly exceeds `u` is
1, so the claim's strict-"exceeds" characterization is false at this
input. -/
theorem C5_sample_from_counterexample :
    sample_from [1/2, 1/2] (1/2) = 0 ∧
    ¬ ((1:ℚ)/2 < (cumsum [1/2, 1/2]).getD 0 0) ∧
    (1:ℚ)/2 < (cumsum [1/2, 1/2]).getD 1 0 := by
  refine ⟨?_, ?_, ?_⟩ <;> norm_num [sample_from, cumsum, searchLeft]

/-- **C5 (amended).** For every probability vector `p` (non-negative
entries summing to 1) and every draw `u ∈ [0,1)`, `sample_from(p)` returns
the smallest index whose running cumulative sum is greater than **or equal
to** `u` (the left insertion point of `np.searchsorted`; for draws that do
not hit a partial sum exactly this coincides with the claim's strict
"exceeds"), and this index always lies in the valid range
`[0, nTopics)` = `[0, len(p))`. -/
theorem C5_sample_from_correct (p : List ℚ) (u : ℚ)
    (_hnn : ∀ q ∈ p, 0 ≤ q) (hsum : p.sum = 1) (_hu0 : 0 ≤ u) (hu1 : u < 1) :
    sample_from p u < p.length ∧
    u ≤ (cumsum p).getD (sample_from p u) 0 ∧
    (∀ j, j < sample_from p u → (cumsum p).getD j 0 < u) := by
  have hne : p ≠ [] := by
    intro h
    rw [h] at hsum
    simp at hsum
  have hlt : sample_from p u < p.length :=
    sample_from_lt_length p u hne (hsum ▸ le_of_lt hu1)
  refine ⟨hlt, ?_, ?_⟩
  · exact searchLeft_found (cumsum p) u (by rw [length_cumsum]; exact hlt)
  · exact searchLeft_min (cumsum p) u

/-- Witness for C5 at `p = [1/2, 1/2]`, `u = 1/4`: the returned index is in
range and its cumulative sum reaches `u`. -/
theorem C5_sample_from_correct_witness :
    sample_from [1/2, 1/2] (1/4) < ([(1:ℚ)/2, 1/2]).length ∧
    (1:ℚ)/4 ≤ (cumsum [1/2, 1/2]).getD (sample_from [1/2, 1/2] (1/4)) 0 :=
  ⟨(C5_sample_from_correct [1/2, 1/2] (1/4) (by norm_num) (by norm_num)
      (by norm_num) (by norm_num)).1,
   (C5_sample_from_correct [1/2, 1/2] (1/4) (by norm_num) (by norm_num)
      (by norm_num) (by norm_num)).2.1⟩

/-- **C6 counterexample.** `_initialize` on a corpus with one perspective
and zero documents (`nTopics = 10`) performs no validation: it completes
normally (the token loop is empty) and returns exactly the freshly
allocated all-zero tables — the degenerate state the claim says can never
be produced.  No check of `nTopics`, the hyperparameters (which
`_initialize` never reads), the vocabulary sizes or the document count
exists anywhere in `__init__` or `_initialize`. -/
theorem C6_fail_fast_counterexample :
    initState 10 gConst ⟨1, []⟩ = initGState ∧
    (initState 10 gConst ⟨1, []⟩).ntd 0 = 0 ∧
    (initState 10 gConst ⟨1, []⟩).ndk 0 0 = 0 ∧
    (initState 10 gConst ⟨1, []⟩).nk 0 = 0 :=
  ⟨rfl, rfl, rfl, rfl⟩

/-- **C6 (amended).** Initialization performs no fail-fast validation: for
every topic count `K`, every draw stream and every perspective count, on a
zero-document corpus it completes normally and produces exactly the
degenerate all-zero count tables (which later make the estimator
denominators `0` when the hyperparameters are also `0`).  Hyperparameters
are not inspected at initialization at all (`initState` does not take
them); a non-positive `nTopics` only fails later, inside the first
`np.random.randint(0, nTopics)` call, which is never reached on an empty
corpus. -/
theorem C6_no_fail_fast (K : ℕ) (g : ℕ → ℕ) (nP : ℕ) :
    initState K g ⟨nP, []⟩ = initGState ∧
    (∀ d k, (initState K g ⟨nP, []⟩).ndk d k = 0) ∧
    (∀ k w, (initState K g ⟨nP, []⟩).nkw k w = 0) ∧
    (∀ d, (initState K g ⟨nP, []⟩).ntd d = 0) ∧
    (∀ p k, (initState K g ⟨nP, []⟩).ns p k = 0) :=
  ⟨rfl, fun _ _ => rfl, fun _ _ => rfl, fun _ => rfl, fun _ _ => rfl⟩

/-- **C7 counterexample.** With hyperparameters `alpha = beta = 0` (the
case the claim is about), `nTopics = VT = 1` and the all-zero state, the
unnormalized vector sums to 0 and `p_z` raises nothing: it returns the
degenerate vector `[0]` (`0/0 = 0` in the exact-rational embedding; numpy
returns `nan` with a warning, also without raising), whose sum is 0 and
not 1 — and `sample_from` applied to it with draw `1/2` yields index 1,
outside the valid label range `[0, 1)`.  The claimed "clear
degenerate-distribution error" does not exist. -/
theorem C7_degenerate_guard_counterexample :
    p_z 1 1 0 0 initGState 0 0 = [0] ∧
    (p_z 1 1 0 0 initGState 0 0).sum = 0 ∧
    sample_from (p_z 1 1 0 0 initGState 0 0) (1/2) = 1 := by
  have h : p_z 1 1 0 0 initGState 0 0 = [0] := by
    norm_num [p_z, pzW, initGState, List.range_succ, Finset.sum_range_one]
  refine ⟨h, ?_, ?_⟩
  · rw [h]; simp
  · rw [h]; norm_num [sample_from, cumsum, searchLeft]

/-- **C7 (amended).** `p_z` and `p_x` contain no guard against a zero-sum
unnormalized vector: with hyperparameters of 0 and all-zero count tables
the unnormalized conditional sums to 0 for every `(d, w)` / `(p, d, w)`,
and both functions still return a length-`nTopics` vector (all zeros under
exact rational division, `nan`s in numpy) whose entries sum to 0 instead
of failing with a degenerate-distribution error; sampling from it can
return an out-of-range index (see the counterexample). -/
theorem C7_no_degenerate_guard (K VT VO : ℕ) (p d w : ℕ) :
    (p_z K VT 0 0 initGState d w).length = K ∧
    (p_z K VT 0 0 initGState d w).sum = 0 ∧
    (p_x K VO 0 initGState p d w).length = K ∧
    (p_x K VO 0 initGState p d w).sum = 0 := by
  have hz : ∀ k, pzW K VT 0 0 initGState d w k = 0 := by
    intro k; simp [pzW, initGState]
  have hx : ∀ k, pxW VO 0 initGState p d w k = 0 := by
    intro k; simp [pxW, initGState]
  refine ⟨p_z_length K VT 0 0 initGState d w, ?_,
    p_x_length K VO 0 initGState p d w, ?_⟩
  · rw [p_z_eq_map, sum_map_range]
    exact Finset.sum_eq_zero (fun k _ => by rw [hz k]; simp)
  · rw [p_x_eq_map, sum_map_range]
    exact Finset.sum_eq_zero (fun k _ => by rw [hx k]; simp)

/-- **C9.** Two-run determinism: with the same corpus and the same
random-number streams (the embedding of a fixed seed: numpy's generator is
a pure function of its seed), two independent executions of
`_initialize()` followed by one kernel sweep produce identical assignment
arrays `z` and `x`.  The embedded sampler is a mathematical function of
`(corpus, integer-draw stream, uniform-draw stream)`; no other input
exists. -/
theorem C9_determinism (K VT VO : ℕ) (alpha beta beta_o : ℚ)
    (c c' : Corpus) (g g' : ℕ → ℕ) (u u' : ℕ → ℚ)
    (hc : c = c') (hg : g = g') (hu : u = u') :
    (initAndSweep K VT VO alpha beta beta_o c g u).1.z =
      (initAndSweep K VT VO alpha beta beta_o c' g' u').1.z ∧
    (initAndSweep K VT VO alpha beta beta_o c g u).1.x =
      (initAndSweep K VT VO alpha beta beta_o c' g' u').1.x := by
  subst hc; subst hg; subst hu
  exact ⟨rfl, rfl⟩

/-- Witness for C9: the one-document fixture corpus with the constant draw
streams, two runs compared. -/
theorem C9_determinism_witness :
    (initAndSweep 2 1 1 1 1 1 witCorpus gConst uHalf).1.z =
      (initAndSweep 2 1 1 1 1 1 witCorpus gConst uHalf).1.z ∧
    (initAndSweep 2 1 1 1 1 1 witCorpus gConst uHalf).1.x =
      (initAndSweep 2 1 1 1 1 1 witCorpus gConst uHalf).1.x :=
  C9_determinism 2 1 1 1 1 1 witCorpus witCorpus gConst gConst uHalf uHalf
    rfl rfl rfl

/-- **C10.** The query operations `p_z`, `p_x`, `sample_from`,
`theta_topic`, `phi_topic`, `phi_opinion` assign no field of the sampler:
their state-passing embeddings return every count table and assignment
array unchanged (the Python methods only read `self` and build fresh
temporaries); only `_initialize` and the sampling kernel produce a new
state. -/
theorem C10_queries_pure :
    (∀ (K VT : ℕ) (alpha beta : ℚ) (s : GState) (d w : ℕ),
      (p_z_op K VT alpha beta s d w).1 = s) ∧
    (∀ (K VO : ℕ) (beta_o : ℚ) (s : GState) (p d w : ℕ),
      (p_x_op K VO beta_o s p d w).1 = s) ∧
    (∀ (s : GState) (p : List ℚ) (u : ℚ), (sample_from_op s p u).1 = s) ∧
    (∀ (K : ℕ) (alpha : ℚ) (s : GState), (theta_topic_op K alpha s).1 = s) ∧
    (∀ (VT : ℕ) (beta : ℚ) (s : GState), (phi_topic_op VT beta s).1 = s) ∧
    (∀ (VO : ℕ) (beta_o : ℚ) (s : GState) (p : ℕ),
      (phi_opinion_op VO beta_o s p).1 = s) :=
  ⟨fun _ _ _ _ _ _ _ => rfl, fun _ _ _ _ _ _ _ => rfl, fun _ _ _ => rfl,
   fun _ _ _ => rfl, fun _ _ _ => rfl, fun _ _ _ _ => rfl⟩

/-! ### Structure of the truncated corpora -/

theorem getD_take {α : Type} (l : List α) (n i : ℕ)
    (h : i < n) (d : α) : (l.take n).getD i d = l.getD i d := by
  rw [List.getD_eq_getElem?_getD, List.getD_eq_getElem?_getD,
    List.getElem?_take_of_lt h]

theorem docAt_trunc (c : Corpus) (m d : ℕ) (h : d < m) :
    docAt (trunc c m) d = docAt c d := by
  unfold docAt trunc
  exact getD_take c.docs m d h emptyDoc

theorem docAt_trunc_ge (c : Corpus) (m d : ℕ) (hm : m ≤ c.docs.length)
    (h : m ≤ d) : docAt (trunc c m) d = emptyDoc := by
  unfold docAt trunc
  rw [List.getD_eq_getElem?_getD, List.getElem?_eq_none]
  · rfl
  · rw [List.length_take]
    omega

theorem length_trunc (c : Corpus) (m : ℕ) (hm : m ≤ c.docs.length) :
    (trunc c m).docs.length = m := by
  simp [trunc, List.length_take]
  omega

theorem trunc_length_eq (c : Corpus) : trunc c c.docs.length = c := by
  unfold trunc
  rw [List.take_length]

theorem length_truncAt (c : Corpus) (m : ℕ) (dm : Doc)
    (hm : m ≤ c.docs.length) : (truncAt c m dm).docs.length = m + 1 := by
  simp [truncAt, List.length_take]
  omega

theorem docAt_truncAt_lt (c : Corpus) (m d : ℕ) (dm : Doc)
    (hm : m ≤ c.docs.length) (h : d < m) :
    docAt (truncAt c m dm) d = docAt c d := by
  unfold docAt truncAt
  rw [List.getD_append]
  · exact getD_take c.docs m d h emptyDoc
  · rw [List.length_take]
    omega

theorem docAt_truncAt_self (c : Corpus) (m : ℕ) (dm : Doc)
    (hm : m ≤ c.docs.length) : docAt (truncAt c m dm) m = dm := by
  unfold docAt truncAt
  rw [List.getD_append_right]
  · have : m - (c.docs.take m).length = 0 := by
      rw [List.length_take]; omega
    rw [this]
    rfl
  · rw [List.length_take]; omega

theorem truncAt_docT_full (c : Corpus) (m : ℕ) :
    truncAt c m (docT (docAt c m) (twLen c m)) =
      truncAt c m (docO (docAt c m) 0) := by
  unfold docT docO twLen
  rw [List.take_length, List.take_zero]

theorem truncAt_docO_full (c : Corpus) (m : ℕ) (hm : m < c.docs.length) :
    truncAt c m (docO (docAt c m) (owLen c m)) = trunc c (m + 1) := by
  unfold docO owLen truncAt trunc
  congr 1
  have hd : docAt c m = c.docs.get ⟨m, hm⟩ := by
    unfold docAt
    rw [List.getD_eq_getElem?_getD, List.getElem?_eq_getElem hm]
    rfl
  rw [List.take_length, List.take_succ, List.getElem?_eq_getElem hm]
  rw [hd]
  rfl

theorem trunc_zero_docs (c : Corpus) : (trunc c 0).docs = [] := by
  simp [trunc]

/-! ### Aggregate bounds -/

theorem ite_one_zero_nonneg {P : Prop} [Decidable P] :
    (0:ℤ) ≤ if P then 1 else 0 := by
  split <;> norm_num

theorem getD_get {α : Type} (l : List α) (i : ℕ) (h : i < l.length) (d : α) :
    l.getD i d = l.get ⟨i, h⟩ := by
  rw [List.getD_eq_getElem?_getD, List.getElem?_eq_getElem h]
  rfl

theorem ndkOf_nonneg (c : Corpus) (z : ℕ → ℕ → ℕ) (d k : ℕ) :
    0 ≤ ndkOf c z d k :=
  Finset.sum_nonneg (fun _ _ => ite_one_zero_nonneg)

theorem nkwOf_nonneg (c : Corpus) (z : ℕ → ℕ → ℕ) (k w : ℕ) :
    0 ≤ nkwOf c z k w :=
  Finset.sum_nonneg (fun _ _ =>
    Finset.sum_nonneg (fun _ _ => ite_one_zero_nonneg))

theorem nkOf_nonneg (c : Corpus) (z : ℕ → ℕ → ℕ) (k : ℕ) :
    0 ≤ nkOf c z k :=
  Finset.sum_nonneg (fun d _ => ndkOf_nonneg c z d k)

theorem nrsOf_nonneg (c : Corpus) (x : ℕ → ℕ → ℕ → ℕ) (p k w : ℕ) :
    0 ≤ nrsOf c x p k w := by
  apply Finset.sum_nonneg
  intro d _
  by_cases h : (docAt c d).persp = p
  · simp only [h, if_true]
    exact Finset.sum_nonneg (fun _ _ => ite_one_zero_nonneg)
  · simp [h]

theorem nsOf_nonneg (c : Corpus) (x : ℕ → ℕ → ℕ → ℕ) (p k : ℕ) :
    0 ≤ nsOf c x p k := by
  apply Finset.sum_nonneg
  intro d _
  by_cases h : (docAt c d).persp = p
  · simp only [h, if_true]
    exact Finset.sum_nonneg (fun _ _ => ite_one_zero_nonneg)
  · simp [h]

theorem ndkOf_ge_one (c : Corpus) (z : ℕ → ℕ → ℕ) (d k i : ℕ)
    (hi : i < twLen c d) (hz : z d i = k) : 1 ≤ ndkOf c z d k := by
  have h := Finset.single_le_sum
    (f := fun j => if z d j = k then (1:ℤ) else 0)
    (fun j _ => ite_one_zero_nonneg) (Finset.mem_range.mpr hi)
  simpa [ndkOf, hz] using h

theorem nkwOf_ge_one (c : Corpus) (z : ℕ → ℕ → ℕ) (d k i w : ℕ)
    (hd : d < c.docs.length) (hi : i < twLen c d)
    (hz : z d i = k) (hw : twId c d i = w) : 1 ≤ nkwOf c z k w := by
  have hinner : 1 ≤ ∑ j ∈ Finset.range (twLen c d),
      if z d j = k ∧ twId c d j = w then (1:ℤ) else 0 := by
    have h := Finset.single_le_sum
      (f := fun j => if z d j = k ∧ twId c d j = w then (1:ℤ) else 0)
      (fun j _ => ite_one_zero_nonneg) (Finset.mem_range.mpr hi)
    simpa [hz, hw] using h
  have houter := Finset.single_le_sum
    (f := fun d' => ∑ j ∈ Finset.range (twLen c d'),
      if z d' j = k ∧ twId c d' j = w then (1:ℤ) else 0)
    (fun d' _ => Finset.sum_nonneg (fun _ _ => ite_one_zero_nonneg))
    (Finset.mem_range.mpr hd)
  simp only [] at houter
  exact le_trans hinner (le_trans houter (le_of_eq rfl))

theorem nkOf_ge_one (c : Corpus) (z : ℕ → ℕ → ℕ) (d k i : ℕ)
    (hd : d < c.docs.length) (hi : i < twLen c d) (hz : z d i = k) :
    1 ≤ nkOf c z k := by
  have houter := Finset.single_le_sum
    (f := fun d' => ndkOf c z d' k)
    (fun d' _ => ndkOf_nonneg c z d' k) (Finset.mem_range.mpr hd)
  exact le_trans (ndkOf_ge_one c z d k i hi hz) houter

theorem nrsOf_ge_one (c : Corpus) (x : ℕ → ℕ → ℕ → ℕ) (d p k i w : ℕ)
    (hd : d < c.docs.length) (hp : (docAt c d).persp = p)
    (hi : i < owLen c d) (hx : x p (docAt c d).dp i = k)
    (hw : owId c d i = w) : 1 ≤ nrsOf c x p k w := by
  have hinner : 1 ≤ ∑ j ∈ Finset.range (owLen c d),
      if x p (docAt c d).dp j = k ∧ owId c d j = w then (1:ℤ) else 0 := by
    have h := Finset.single_le_sum
      (f := fun j => if x p (docAt c d).dp j = k ∧ owId c d j = w then (1:ℤ) else 0)
      (fun j _ => ite_one_zero_nonneg) (Finset.mem_range.mpr hi)
    simpa [hx, hw] using h
  have houter := Finset.single_le_sum
    (f := fun d' => if (docAt c d').persp = p then
      ∑ j ∈ Finset.range (owLen c d'),
        if x p (docAt c d').dp j = k ∧ owId c d' j = w then (1:ℤ) else 0
      else 0)
    (fun d' _ => by
      by_cases h : (docAt c d').persp = p
      · simp only [h, if_true]
        exact Finset.sum_nonneg (fun _ _ => ite_one_zero_nonneg)
      · simp [h])
    (Finset.mem_range.mpr hd)
  simp only [hp, if_true] at houter
  exact le_trans hinner (le_trans houter (le_of_eq rfl))

theorem nsOf_ge_one (c : Corpus) (x : ℕ → ℕ → ℕ → ℕ) (d p k i : ℕ)
    (hd : d < c.docs.length) (hp : (docAt c d).persp = p)
    (hi : i < owLen c d) (hx : x p (docAt c d).dp i = k) :
    1 ≤ nsOf c x p k := by
  have hinner : 1 ≤ ∑ j ∈ Finset.range (owLen c d),
      if x p (docAt c d).dp j = k then (1:ℤ) else 0 := by
    have h := Finset.single_le_sum
      (f := fun j => if x p (docAt c d).dp j = k then (1:ℤ) else 0)
      (fun j _ => ite_one_zero_nonneg) (Finset.mem_range.mpr hi)
    simpa [hx] using h
  have houter := Finset.single_le_sum
    (f := fun d' => if (docAt c d').persp = p then
      ∑ j ∈ Finset.range (owLen c d'),
        if x p (docAt c d').dp j = k then (1:ℤ) else 0
      else 0)
    (fun d' _ => by
      by_cases h : (docAt c d').persp = p
      · simp only [h, if_true]
        exact Finset.sum_nonneg (fun _ _ => ite_one_zero_nonneg)
      · simp [h])
    (Finset.mem_range.mpr hd)
  simp only [hp, if_true] at houter
  exact le_trans hinner (le_trans houter (le_of_eq rfl))

theorem valid_twId_lt (c : Corpus) (VT VO : ℕ) (hv : ValidCorpus c VT VO)
    (d i : ℕ) (hd : d < c.docs.length) (hi : i < twLen c d) :
    twId c d i < VT := by
  have h := (hv.1 d hd).1
  unfold twId
  rw [getD_get _ _ hi]
  exact h _ (List.get_mem _ _ _)

theorem valid_owId_lt (c : Corpus) (VT VO : ℕ) (hv : ValidCorpus c VT VO)
    (d i : ℕ) (hd : d < c.docs.length) (hi : i < owLen c d) :
    owId c d i < VO := by
  have h := (hv.1 d hd).2.1
  unfold owId
  rw [getD_get _ _ hi]
  exact h _ (List.get_mem _ _ _)

theorem sum_ndkOf (c : Corpus) (z : ℕ → ℕ → ℕ) (d K : ℕ)
    (hz : ∀ i, z d i < K) :
    (∑ k ∈ Finset.range K, ndkOf c z d k) = ntdOf c d := by
  unfold ndkOf ntdOf
  rw [Finset.sum_comm]
  have h : ∀ i ∈ Finset.range (twLen c d),
      (∑ k ∈ Finset.range K, if z d i = k then (1:ℤ) else 0) = 1 := by
    intro i _
    rw [Finset.sum_ite_eq]
    exact if_pos (Finset.mem_range.mpr (hz i))
  rw [Finset.sum_congr rfl h]
  simp

theorem sum_nkwOf (c : Corpus) (z : ℕ → ℕ → ℕ) (k VT : ℕ)
    (hw : ∀ d i, d < c.docs.length → i < twLen c d → twId c d i < VT) :
    (∑ w ∈ Finset.range VT, nkwOf c z k w) = nkOf c z k := by
  unfold nkwOf nkOf ndkOf
  rw [Finset.sum_comm]
  apply Finset.sum_congr rfl
  intro d hd
  rw [Finset.sum_comm]
  apply Finset.sum_congr rfl
  intro i hi
  have hlt := hw d i (Finset.mem_range.mp hd) (Finset.mem_range.mp hi)
  by_cases hzk : z d i = k
  · simp only [hzk, true_and, if_pos]
    rw [Finset.sum_ite_eq]
    simp [Finset.mem_range.mpr hlt]
  · simp [hzk]

theorem sum_nrsOf (c : Corpus) (x : ℕ → ℕ → ℕ → ℕ) (p k VO : ℕ)
    (hw : ∀ d i, d < c.docs.length → i < owLen c d → owId c d i < VO) :
    (∑ w ∈ Finset.range VO, nrsOf c x p k w) = nsOf c x p k := by
  unfold nrsOf nsOf
  rw [Finset.sum_comm]
  apply Finset.sum_congr rfl
  intro d hd
  by_cases hp : (docAt c d).persp = p
  · simp only [hp, if_true]
    rw [Finset.sum_comm]
    apply Finset.sum_congr rfl
    intro i hi
    have hlt := hw d i (Finset.mem_range.mp hd) (Finset.mem_range.mp hi)
    by_cases hxk : x p (docAt c d).dp i = k
    · simp only [hxk, true_and, if_pos]
      rw [Finset.sum_ite_eq]
      simp [Finset.mem_range.mpr hlt]
    · simp [hxk]
  · simp [hp]

theorem docAt_ge (c : Corpus) (d : ℕ) (h : c.docs.length ≤ d) :
    docAt c d = emptyDoc := by
  unfold docAt
  rw [List.getD_eq_getElem?_getD, List.getElem?_eq_none h]
  rfl

theorem twLen_docT (c : Corpus) (m n : ℕ) (hm : m ≤ c.docs.length)
    (hn : n ≤ twLen c m) :
    twLen (truncAt c m (docT (docAt c m) n)) m = n := by
  unfold twLen at *
  rw [docAt_truncAt_self _ _ _ hm]
  unfold docT
  simp only [List.length_take]
  omega

theorem owLen_docT (c : Corpus) (m n : ℕ) (hm : m ≤ c.docs.length) :
    owLen (truncAt c m (docT (docAt c m) n)) m = 0 := by
  unfold owLen
  rw [docAt_truncAt_self _ _ _ hm]
  rfl

theorem twLen_docO (c : Corpus) (m n : ℕ) (hm : m ≤ c.docs.length) :
    twLen (truncAt c m (docO (docAt c m) n)) m = twLen c m := by
  unfold twLen
  rw [docAt_truncAt_self _ _ _ hm]
  rfl

theorem owLen_docO (c : Corpus) (m n : ℕ) (hm : m ≤ c.docs.length)
    (hn : n ≤ owLen c m) :
    owLen (truncAt c m (docO (docAt c m) n)) m = n := by
  unfold owLen at *
  rw [docAt_truncAt_self _ _ _ hm]
  unfold docO
  simp only [List.length_take]
  omega

theorem twId_docT (c : Corpus) (m n j : ℕ) (hm : m ≤ c.docs.length)
    (hj : j < n) :
    twId (truncAt c m (docT (docAt c m) n)) m j = twId c m j := by
  unfold twId
  rw [docAt_truncAt_self _ _ _ hm]
  exact getD_take _ _ _ hj _

theorem twId_docO (c : Corpus) (m n j : ℕ) (hm : m ≤ c.docs.length) :
    twId (truncAt c m (docO (docAt c m) n)) m j = twId c m j := by
  unfold twId
  rw [docAt_truncAt_self _ _ _ hm]
  rfl

theorem owId_docO (c : Corpus) (m n j : ℕ) (hm : m ≤ c.docs.length)
    (hj : j < n) :
    owId (truncAt c m (docO (docAt c m) n)) m j = owId c m j := by
  unfold owId
  rw [docAt_truncAt_self _ _ _ hm]
  exact getD_take _ _ _ hj _

theorem ndkOf_ext (c₁ c₂ : Corpus) (z₁ z₂ : ℕ → ℕ → ℕ) (d k : ℕ)
    (hdoc : docAt c₁ d = docAt c₂ d) (hz : ∀ j, z₁ d j = z₂ d j) :
    ndkOf c₁ z₁ d k = ndkOf c₂ z₂ d k := by
  unfold ndkOf twLen
  rw [hdoc]
  exact Finset.sum_congr rfl (fun j _ => by rw [hz j])

theorem docAt_truncAt_ne (c : Corpus) (m d : ℕ) (dm dm' : Doc)
    (hm : m ≤ c.docs.length) (hd : d ≠ m) :
    docAt (truncAt c m dm) d = docAt (truncAt c m dm') d := by
  rcases Nat.lt_or_ge d m with h | h
  · rw [docAt_truncAt_lt c m d dm hm h, docAt_truncAt_lt c m d dm' hm h]
  · have h' : m < d := lt_of_le_of_ne h (Ne.symm hd)
    rw [docAt_ge _ _ (by rw [length_truncAt c m dm hm]; omega),
      docAt_ge _ _ (by rw [length_truncAt c m dm' hm]; omega)]

theorem ndkOf_congr (c₁ c₂ : Corpus) (z₁ z₂ : ℕ → ℕ → ℕ) (d k : ℕ)
    (htw : (docAt c₁ d).topicWords = (docAt c₂ d).topicWords)
    (hz : ∀ j, j < twLen c₁ d → z₁ d j = z₂ d j) :
    ndkOf c₁ z₁ d k = ndkOf c₂ z₂ d k := by
  unfold ndkOf twLen
  rw [← htw]
  exact Finset.sum_congr rfl
    (fun j hj => by rw [hz j (Finset.mem_range.mp hj)])

theorem nkwOf_congr (c₁ c₂ : Corpus) (z₁ z₂ : ℕ → ℕ → ℕ) (k w : ℕ)
    (hlen : c₁.docs.length = c₂.docs.length)
    (htw : ∀ d, d < c₁.docs.length →
      (docAt c₁ d).topicWords = (docAt c₂ d).topicWords)
    (hz : ∀ d, d < c₁.docs.length → ∀ j, j < twLen c₁ d → z₁ d j = z₂ d j) :
    nkwOf c₁ z₁ k w = nkwOf c₂ z₂ k w := by
  unfold nkwOf
  rw [← hlen]
  apply Finset.sum_congr rfl
  intro d hd
  have hd' := Finset.mem_range.mp hd
  have he : twLen c₂ d = twLen c₁ d := by
    unfold twLen; rw [htw d hd']
  have he2 : ∀ j, twId c₂ d j = twId c₁ d j := by
    intro j; unfold twId; rw [htw d hd']
  rw [he]
  exact Finset.sum_congr rfl (fun j hj => by
    rw [hz d hd' j (Finset.mem_range.mp hj), he2 j])

theorem nkOf_congr (c₁ c₂ : Corpus) (z₁ z₂ : ℕ → ℕ → ℕ) (k : ℕ)
    (hlen : c₁.docs.length = c₂.docs.length)
    (htw : ∀ d, d < c₁.docs.length →
      (docAt c₁ d).topicWords = (docAt c₂ d).topicWords)
    (hz : ∀ d, d < c₁.docs.length → ∀ j, j < twLen c₁ d → z₁ d j = z₂ d j) :
    nkOf c₁ z₁ k = nkOf c₂ z₂ k := by
  unfold nkOf
  rw [← hlen]
  exact Finset.sum_congr rfl (fun d hd =>
    ndkOf_congr c₁ c₂ z₁ z₂ d k (htw d (Finset.mem_range.mp hd))
      (hz d (Finset.mem_range.mp hd)))

theorem nrsOf_congr (c₁ c₂ : Corpus) (x₁ x₂ : ℕ → ℕ → ℕ → ℕ) (p k w : ℕ)
    (hlen : c₁.docs.length = c₂.docs.length)
    (hpd : ∀ d, d < c₁.docs.length →
      (docAt c₁ d).persp = (docAt c₂ d).persp ∧
      (docAt c₁ d).dp = (docAt c₂ d).dp ∧
      (docAt c₁ d).opinionWords = (docAt c₂ d).opinionWords)
    (hx : ∀ d, d < c₁.docs.length → (docAt c₁ d).persp = p →
      ∀ j, j < owLen c₁ d →
      x₁ p (docAt c₁ d).dp j = x₂ p (docAt c₁ d).dp j) :
    nrsOf c₁ x₁ p k w = nrsOf c₂ x₂ p k w := by
  unfold nrsOf
  rw [← hlen]
  apply Finset.sum_congr rfl
  intro d hd
  have hd' := Finset.mem_range.mp hd
  obtain ⟨hp, hdp, how⟩ := hpd d hd'
  have he : owLen c₂ d = owLen c₁ d := by
    unfold owLen; rw [how]
  have he2 : ∀ j, owId c₂ d j = owId c₁ d j := by
    intro j; unfold owId; rw [how]
  rw [← hp, ← hdp, he]
  by_cases hpp : (docAt c₁ d).persp = p
  · simp only [hpp, if_true]
    exact Finset.sum_congr rfl (fun j hj => by
      rw [hx d hd' hpp j (Finset.mem_range.mp hj), he2 j])
  · simp [hpp]

theorem nsOf_congr (c₁ c₂ : Corpus) (x₁ x₂ : ℕ → ℕ → ℕ → ℕ) (p k : ℕ)
    (hlen : c₁.docs.length = c₂.docs.length)
    (hpd : ∀ d, d < c₁.docs.length →
      (docAt c₁ d).persp = (docAt c₂ d).persp ∧
      (docAt c₁ d).dp = (docAt c₂ d).dp ∧
      (docAt c₁ d).opinionWords = (docAt c₂ d).opinionWords)
    (hx : ∀ d, d < c₁.docs.length → (docAt c₁ d).persp = p →
      ∀ j, j < owLen c₁ d →
      x₁ p (docAt c₁ d).dp j = x₂ p (docAt c₁ d).dp j) :
    nsOf c₁ x₁ p k = nsOf c₂ x₂ p k := by
  unfold nsOf
  rw [← hlen]
  apply Finset.sum_congr rfl
  intro d hd
  have hd' := Finset.mem_range.mp hd
  obtain ⟨hp, hdp, how⟩ := hpd d hd'
  have he : owLen c₂ d = owLen c₁ d := by
    unfold owLen; rw [how]
  rw [← hp, ← hdp, he]
  by_cases hpp : (docAt c₁ d).persp = p
  · simp only [hpp, if_true]
    exact Finset.sum_congr rfl (fun j hj => by
      rw [hx d hd' hpp j (Finset.mem_range.mp hj)])
  · simp [hpp]

theorem ndkOf_docT_succ (c : Corpus) (m i : ℕ) (hm : m ≤ c.docs.length)
    (hi : i < twLen c m) (z : ℕ → ℕ → ℕ) (k : ℕ) :
    ndkOf (truncAt c m (docT (docAt c m) (i + 1))) z m k =
      ndkOf (truncAt c m (docT (docAt c m) i)) z m k +
        (if z m i = k then 1 else 0) := by
  unfold ndkOf
  rw [twLen_docT c m (i + 1) hm hi, twLen_docT c m i hm (le_of_lt hi),
    Finset.sum_range_succ]

theorem nkwOf_docT_succ (c : Corpus) (m i : ℕ) (hm : m ≤ c.docs.length)
    (hi : i < twLen c m) (z : ℕ → ℕ → ℕ) (k w : ℕ) :
    nkwOf (truncAt c m (docT (docAt c m) (i + 1))) z k w =
      nkwOf (truncAt c m (docT (docAt c m) i)) z k w +
        (if z m i = k ∧ twId c m i = w then 1 else 0) := by
  unfold nkwOf
  rw [length_truncAt c m _ hm, length_truncAt c m _ hm,
    Finset.sum_range_succ, Finset.sum_range_succ]
  have hother : ∀ d ∈ Finset.range m,
      (∑ j ∈ Finset.range (twLen (truncAt c m (docT (docAt c m) (i + 1))) d),
        if z d j = k ∧ twId (truncAt c m (docT (docAt c m) (i + 1))) d j = w
        then (1:ℤ) else 0) =
      (∑ j ∈ Finset.range (twLen (truncAt c m (docT (docAt c m) i)) d),
        if z d j = k ∧ twId (truncAt c m (docT (docAt c m) i)) d j = w
        then (1:ℤ) else 0) := by
    intro d hd
    have hdm : d ≠ m := by
      have := Finset.mem_range.mp hd; omega
    have he : docAt (truncAt c m (docT (docAt c m) (i + 1))) d =
        docAt (truncAt c m (docT (docAt c m) i)) d :=
      docAt_truncAt_ne c m d _ _ hm hdm
    unfold twLen twId
    rw [he]
  have hids : ∀ j ∈ Finset.range i,
      (if z m j = k ∧ twId (truncAt c m (docT (docAt c m) (i + 1))) m j = w
        then (1:ℤ) else 0) =
      (if z m j = k ∧ twId (truncAt c m (docT (docAt c m) i)) m j = w
        then (1:ℤ) else 0) := by
    intro j hj
    have hj' := Finset.mem_range.mp hj
    rw [twId_docT c m (i + 1) j hm (by omega), twId_docT c m i j hm hj']
  have hterm :
      (∑ j ∈ Finset.range (twLen (truncAt c m (docT (docAt c m) (i + 1))) m),
        if z m j = k ∧ twId (truncAt c m (docT (docAt c m) (i + 1))) m j = w
        then (1:ℤ) else 0) =
      (∑ j ∈ Finset.range (twLen (truncAt c m (docT (docAt c m) i)) m),
        if z m j = k ∧ twId (truncAt c m (docT (docAt c m) i)) m j = w
        then (1:ℤ) else 0) +
        (if z m i = k ∧ twId c m i = w then 1 else 0) := by
    rw [twLen_docT c m (i + 1) hm hi, twLen_docT c m i hm (le_of_lt hi),
      Finset.sum_range_succ, Finset.sum_congr rfl hids,
      twId_docT c m (i + 1) i hm (by omega)]
  rw [Finset.sum_congr rfl hother, hterm]
  ring

theorem nkOf_docT_succ (c : Corpus) (m i : ℕ) (hm : m ≤ c.docs.length)
    (hi : i < twLen c m) (z : ℕ → ℕ → ℕ) (k : ℕ) :
    nkOf (truncAt c m (docT (docAt c m) (i + 1))) z k =
      nkOf (truncAt c m (docT (docAt c m) i)) z k +
        (if z m i = k then 1 else 0) := by
  unfold nkOf
  rw [length_truncAt c m _ hm, length_truncAt c m _ hm,
    Finset.sum_range_succ, Finset.sum_range_succ]
  have hother : ∀ d ∈ Finset.range m,
      ndkOf (truncAt c m (docT (docAt c m) (i + 1))) z d k =
      ndkOf (truncAt c m (docT (docAt c m) i)) z d k := by
    intro d hd
    have hdm : d ≠ m := by
      have := Finset.mem_range.mp hd; omega
    exact ndkOf_congr _ _ z z d k
      (by rw [docAt_truncAt_ne c m d _ _ hm hdm]) (fun _ _ => rfl)
  rw [Finset.sum_congr rfl hother, ndkOf_docT_succ c m i hm hi z k]
  ring

theorem ntdOf_docT_self (c : Corpus) (m n : ℕ) (hm : m ≤ c.docs.length)
    (hn : n ≤ twLen c m) :
    ntdOf (truncAt c m (docT (docAt c m) n)) m = (n : ℤ) := by
  unfold ntdOf
  rw [twLen_docT c m n hm hn]

theorem ntdOf_truncAt_ne (c : Corpus) (m d : ℕ) (dm dm' : Doc)
    (hm : m ≤ c.docs.length) (hd : d ≠ m) :
    ntdOf (truncAt c m dm) d = ntdOf (truncAt c m dm') d := by
  unfold ntdOf twLen
  rw [docAt_truncAt_ne c m d dm dm' hm hd]

theorem nrsOf_docT_ext (c : Corpus) (m n n' : ℕ) (hm : m ≤ c.docs.length)
    (x : ℕ → ℕ → ℕ → ℕ) (p k w : ℕ) :
    nrsOf (truncAt c m (docT (docAt c m) n)) x p k w =
      nrsOf (truncAt c m (docT (docAt c m) n')) x p k w := by
  apply nrsOf_congr
  · rw [length_truncAt c m _ hm, length_truncAt c m _ hm]
  · intro d hd
    by_cases hdm : d = m
    · subst hdm
      rw [docAt_truncAt_self c d _ hm, docAt_truncAt_self c d _ hm]
      exact ⟨rfl, rfl, rfl⟩
    · rw [docAt_truncAt_ne c m d _ _ hm hdm]
      exact ⟨rfl, rfl, rfl⟩
  · intro d _ _ j _
    rfl

theorem nsOf_docT_ext (c : Corpus) (m n n' : ℕ) (hm : m ≤ c.docs.length)
    (x : ℕ → ℕ → ℕ → ℕ) (p k : ℕ) :
    nsOf (truncAt c m (docT (docAt c m) n)) x p k =
      nsOf (truncAt c m (docT (docAt c m) n')) x p k := by
  apply nsOf_congr
  · rw [length_truncAt c m _ hm, length_truncAt c m _ hm]
  · intro d hd
    by_cases hdm : d = m
    · subst hdm
      rw [docAt_truncAt_self c d _ hm, docAt_truncAt_self c d _ hm]
      exact ⟨rfl, rfl, rfl⟩
    · rw [docAt_truncAt_ne c m d _ _ hm hdm]
      exact ⟨rfl, rfl, rfl⟩
  · intro d _ _ j _
    rfl

theorem docO_persp (doc : Doc) (n : ℕ) : (docO doc n).persp = doc.persp := rfl

theorem docO_dp (doc : Doc) (n : ℕ) : (docO doc n).dp = doc.dp := rfl

theorem docO_tw (doc : Doc) (n : ℕ) :
    (docO doc n).topicWords = doc.topicWords := rfl

theorem ndkOf_docO_ext (c : Corpus) (m n n' : ℕ) (hm : m ≤ c.docs.length)
    (z : ℕ → ℕ → ℕ) (d k : ℕ) :
    ndkOf (truncAt c m (docO (docAt c m) n)) z d k =
      ndkOf (truncAt c m (docO (docAt c m) n')) z d k := by
  apply ndkOf_congr _ _ z z d k _ (fun _ _ => rfl)
  by_cases hdm : d = m
  · subst hdm
    rw [docAt_truncAt_self c d _ hm, docAt_truncAt_self c d _ hm,
      docO_tw, docO_tw]
  · rw [docAt_truncAt_ne c m d _ _ hm hdm]

theorem nkwOf_docO_ext (c : Corpus) (m n n' : ℕ) (hm : m ≤ c.docs.length)
    (z : ℕ → ℕ → ℕ) (k w : ℕ) :
    nkwOf (truncAt c m (docO (docAt c m) n)) z k w =
      nkwOf (truncAt c m (docO (docAt c m) n')) z k w := by
  apply nkwOf_congr _ _ z z k w
  · rw [length_truncAt c m _ hm, length_truncAt c m _ hm]
  · intro d _
    by_cases hdm : d = m
    · subst hdm
      rw [docAt_truncAt_self c d _ hm, docAt_truncAt_self c d _ hm,
        docO_tw, docO_tw]
    · rw [docAt_truncAt_ne c m d _ _ hm hdm]
  · intro _ _ _ _
    rfl

theorem nkOf_docO_ext (c : Corpus) (m n n' : ℕ) (hm : m ≤ c.docs.length)
    (z : ℕ → ℕ → ℕ) (k : ℕ) :
    nkOf (truncAt c m (docO (docAt c m) n)) z k =
      nkOf (truncAt c m (docO (docAt c m) n')) z k := by
  apply nkOf_congr _ _ z z k
  · rw [length_truncAt c m _ hm, length_truncAt c m _ hm]
  · intro d _
    by_cases hdm : d = m
    · subst hdm
      rw [docAt_truncAt_self c d _ hm, docAt_truncAt_self c d _ hm,
        docO_tw, docO_tw]
    · rw [docAt_truncAt_ne c m d _ _ hm hdm]
  · intro _ _ _ _
    rfl

theorem ntdOf_docO_ext (c : Corpus) (m n n' : ℕ) (hm : m ≤ c.docs.length)
    (d : ℕ) :
    ntdOf (truncAt c m (docO (docAt c m) n)) d =
      ntdOf (truncAt c m (docO (docAt c m) n')) d := by
  unfold ntdOf twLen
  by_cases hdm : d = m
  · subst hdm
    rw [docAt_truncAt_self c d _ hm, docAt_truncAt_self c d _ hm,
      docO_tw, docO_tw]
  · rw [docAt_truncAt_ne c m d _ _ hm hdm]

theorem nrsOf_docO_succ (c : Corpus) (m i : ℕ) (hm : m ≤ c.docs.length)
    (hi : i < owLen c m) (x : ℕ → ℕ → ℕ → ℕ) (p k w : ℕ) :
    nrsOf (truncAt c m (docO (docAt c m) (i + 1))) x p k w =
      nrsOf (truncAt c m (docO (docAt c m) i)) x p k w +
        (if (docAt c m).persp = p ∧ x p (docAt c m).dp i = k ∧ owId c m i = w
          then 1 else 0) := by
  unfold nrsOf
  rw [length_truncAt c m _ hm, length_truncAt c m _ hm,
    Finset.sum_range_succ, Finset.sum_range_succ]
  have hother : ∀ d ∈ Finset.range m,
      (if (docAt (truncAt c m (docO (docAt c m) (i + 1))) d).persp = p then
        ∑ j ∈ Finset.range (owLen (truncAt c m (docO (docAt c m) (i + 1))) d),
          if x p (docAt (truncAt c m (docO (docAt c m) (i + 1))) d).dp j = k ∧
            owId (truncAt c m (docO (docAt c m) (i + 1))) d j = w
          then (1:ℤ) else 0
        else 0) =
      (if (docAt (truncAt c m (docO (docAt c m) i)) d).persp = p then
        ∑ j ∈ Finset.range (owLen (truncAt c m (docO (docAt c m) i)) d),
          if x p (docAt (truncAt c m (docO (docAt c m) i)) d).dp j = k ∧
            owId (truncAt c m (docO (docAt c m) i)) d j = w
          then (1:ℤ) else 0
        else 0) := by
    intro d hd
    have hdm : d ≠ m := by
      have := Finset.mem_range.mp hd; omega
    have he : docAt (truncAt c m (docO (docAt c m) (i + 1))) d =
        docAt (truncAt c m (docO (docAt c m) i)) d :=
      docAt_truncAt_ne c m d _ _ hm hdm
    unfold owLen owId
    rw [he]
  rw [Finset.sum_congr rfl hother]
  rw [docAt_truncAt_self c m _ hm, docAt_truncAt_self c m _ hm]
  by_cases hp : (docAt c m).persp = p
  · simp only [docO_persp, docO_dp, hp, eq_self_iff_true, if_true, true_and]
    rw [owLen_docO c m (i + 1) hm hi, owLen_docO c m i hm (le_of_lt hi),
      Finset.sum_range_succ]
    have h1 : (∑ j ∈ Finset.range i,
        if x p (docAt c m).dp j = k ∧
          owId (truncAt c m (docO (docAt c m) (i + 1))) m j = w
        then (1:ℤ) else 0) =
        (∑ j ∈ Finset.range i,
        if x p (docAt c m).dp j = k ∧
          owId (truncAt c m (docO (docAt c m) i)) m j = w
        then (1:ℤ) else 0) := by
      apply Finset.sum_congr rfl
      intro j hj
      have hj' := Finset.mem_range.mp hj
      rw [owId_docO c m (i + 1) j hm (by omega), owId_docO c m i j hm hj']
    have h2 : (if x p (docAt c m).dp i = k ∧
        owId (truncAt c m (docO (docAt c m) (i + 1))) m i = w
        then (1:ℤ) else 0) =
        (if x p (docAt c m).dp i = k ∧ owId c m i = w
        then (1:ℤ) else 0) := by
      rw [owId_docO c m (i + 1) i hm (by omega)]
    rw [h1, h2]
    ring
  · simp only [docO_persp, hp, if_false, false_and]
    ring

theorem nsOf_docO_succ (c : Corpus) (m i : ℕ) (hm : m ≤ c.docs.length)
    (hi : i < owLen c m) (x : ℕ → ℕ → ℕ → ℕ) (p k : ℕ) :
    nsOf (truncAt c m (docO (docAt c m) (i + 1))) x p k =
      nsOf (truncAt c m (docO (docAt c m) i)) x p k +
        (if (docAt c m).persp = p ∧ x p (docAt c m).dp i = k
          then 1 else 0) := by
  unfold nsOf
  rw [length_truncAt c m _ hm, length_truncAt c m _ hm,
    Finset.sum_range_succ, Finset.sum_range_succ]
  have hother : ∀ d ∈ Finset.range m,
      (if (docAt (truncAt c m (docO (docAt c m) (i + 1))) d).persp = p then
        ∑ j ∈ Finset.range (owLen (truncAt c m (docO (docAt c m) (i + 1))) d),
          if x p (docAt (truncAt c m (docO (docAt c m) (i + 1))) d).dp j = k
          then (1:ℤ) else 0
        else 0) =
      (if (docAt (truncAt c m (docO (docAt c m) i)) d).persp = p then
        ∑ j ∈ Finset.range (owLen (truncAt c m (docO (docAt c m) i)) d),
          if x p (docAt (truncAt c m (docO (docAt c m) i)) d).dp j = k
          then (1:ℤ) else 0
        else 0) := by
    intro d hd
    have hdm : d ≠ m := by
      have := Finset.mem_range.mp hd; omega
    have he : docAt (truncAt c m (docO (docAt c m) (i + 1))) d =
        docAt (truncAt c m (docO (docAt c m) i)) d :=
      docAt_truncAt_ne c m d _ _ hm hdm
    unfold owLen
    rw [he]
  rw [Finset.sum_congr rfl hother]
  rw [docAt_truncAt_self c m _ hm, docAt_truncAt_self c m _ hm]
  by_cases hp : (docAt c m).persp = p
  · simp only [docO_persp, docO_dp, hp, eq_self_iff_true, if_true, true_and]
    rw [owLen_docO c m (i + 1) hm hi, owLen_docO c m i hm (le_of_lt hi),
      Finset.sum_range_succ, add_assoc]
  · simp only [docO_persp, hp, if_false, false_and]
    ring

theorem docT_tw (doc : Doc) (n : ℕ) :
    (docT doc n).topicWords = doc.topicWords.take n := rfl

theorem ndkOf_start (c : Corpus) (m : ℕ) (hm : m ≤ c.docs.length)
    (z : ℕ → ℕ → ℕ) (d k : ℕ) :
    ndkOf (truncAt c m (docT (docAt c m) 0)) z d k =
      ndkOf (trunc c m) z d k := by
  apply ndkOf_congr _ _ z z d k _ (fun _ _ => rfl)
  rcases Nat.lt_trichotomy d m with h | h | h
  · rw [docAt_truncAt_lt c m d _ hm h, docAt_trunc c m d h]
  · subst h
    rw [docAt_truncAt_self c d _ hm, docAt_trunc_ge c d d hm (le_refl d),
      docT_tw, List.take_zero]
    rfl
  · rw [docAt_ge _ d (by rw [length_truncAt c m _ hm]; omega),
      docAt_ge _ d (by rw [length_trunc c m hm]; omega)]

theorem ntdOf_start (c : Corpus) (m : ℕ) (hm : m ≤ c.docs.length) (d : ℕ) :
    ntdOf (truncAt c m (docT (docAt c m) 0)) d = ntdOf (trunc c m) d := by
  unfold ntdOf twLen
  rcases Nat.lt_trichotomy d m with h | h | h
  · rw [docAt_truncAt_lt c m d _ hm h, docAt_trunc c m d h]
  · subst h
    rw [docAt_truncAt_self c d _ hm, docAt_trunc_ge c d d hm (le_refl d),
      docT_tw, List.take_zero]
    rfl
  · rw [docAt_ge _ d (by rw [length_truncAt c m _ hm]; omega),
      docAt_ge _ d (by rw [length_trunc c m hm]; omega)]

theorem nkwOf_start (c : Corpus) (m : ℕ) (hm : m ≤ c.docs.length)
    (z : ℕ → ℕ → ℕ) (k w : ℕ) :
    nkwOf (truncAt c m (docT (docAt c m) 0)) z k w =
      nkwOf (trunc c m) z k w := by
  unfold nkwOf
  rw [length_truncAt c m _ hm, length_trunc c m hm, Finset.sum_range_succ]
  have hlast : (∑ j ∈ Finset.range
      (twLen (truncAt c m (docT (docAt c m) 0)) m),
      if z m j = k ∧ twId (truncAt c m (docT (docAt c m) 0)) m j = w
      then (1:ℤ) else 0) = 0 := by
    rw [twLen_docT c m 0 hm (Nat.zero_le _)]
    simp
  rw [hlast, add_zero]
  apply Finset.sum_congr rfl
  intro d hd
  have h : d < m := Finset.mem_range.mp hd
  have he : docAt (truncAt c m (docT (docAt c m) 0)) d = docAt (trunc c m) d := by
    rw [docAt_truncAt_lt c m d _ hm h, docAt_trunc c m d h]
  unfold twLen twId
  rw [he]

theorem nkOf_start (c : Corpus) (m : ℕ) (hm : m ≤ c.docs.length)
    (z : ℕ → ℕ → ℕ) (k : ℕ) :
    nkOf (truncAt c m (docT (docAt c m) 0)) z k = nkOf (trunc c m) z k := by
  unfold nkOf
  rw [length_truncAt c m _ hm, length_trunc c m hm, Finset.sum_range_succ]
  have hlast : ndkOf (truncAt c m (docT (docAt c m) 0)) z m k = 0 := by
    unfold ndkOf
    rw [twLen_docT c m 0 hm (Nat.zero_le _)]
    simp
  rw [hlast, add_zero]
  exact Finset.sum_congr rfl (fun d _ => ndkOf_start c m hm z d k)

theorem nrsOf_start (c : Corpus) (m : ℕ) (hm : m ≤ c.docs.length)
    (x : ℕ → ℕ → ℕ → ℕ) (p k w : ℕ) :
    nrsOf (truncAt c m (docT (docAt c m) 0)) x p k w =
      nrsOf (trunc c m) x p k w := by
  unfold nrsOf
  rw [length_truncAt c m _ hm, length_trunc c m hm, Finset.sum_range_succ]
  have hlast : (if (docAt (truncAt c m (docT (docAt c m) 0)) m).persp = p then
      ∑ j ∈ Finset.range (owLen (truncAt c m (docT (docAt c m) 0)) m),
        if x p (docAt (truncAt c m (docT (docAt c m) 0)) m).dp j = k ∧
          owId (truncAt c m (docT (docAt c m) 0)) m j = w
        then (1:ℤ) else 0
      else 0) = 0 := by
    rw [owLen_docT c m 0 hm]
    simp
  rw [hlast, add_zero]
  apply Finset.sum_congr rfl
  intro d hd
  have h : d < m := Finset.mem_range.mp hd
  have he : docAt (truncAt c m (docT (docAt c m) 0)) d = docAt (trunc c m) d := by
    rw [docAt_truncAt_lt c m d _ hm h, docAt_trunc c m d h]
  unfold owLen owId
  rw [he]

theorem nsOf_start (c : Corpus) (m : ℕ) (hm : m ≤ c.docs.length)
    (x : ℕ → ℕ → ℕ → ℕ) (p k : ℕ) :
    nsOf (truncAt c m (docT (docAt c m) 0)) x p k =
      nsOf (trunc c m) x p k := by
  unfold nsOf
  rw [length_truncAt c m _ hm, length_trunc c m hm, Finset.sum_range_succ]
  have hlast : (if (docAt (truncAt c m (docT (docAt c m) 0)) m).persp = p then
      ∑ j ∈ Finset.range (owLen (truncAt c m (docT (docAt c m) 0)) m),
        if x p (docAt (truncAt c m (docT (docAt c m) 0)) m).dp j = k
        then (1:ℤ) else 0
      else 0) = 0 := by
    rw [owLen_docT c m 0 hm]
    simp
  rw [hlast, add_zero]
  apply Finset.sum_congr rfl
  intro d hd
  have h : d < m := Finset.mem_range.mp hd
  have he : docAt (truncAt c m (docT (docAt c m) 0)) d = docAt (trunc c m) d := by
    rw [docAt_truncAt_lt c m d _ hm h, docAt_trunc c m d h]
  unfold owLen
  rw [he]

theorem initTopicStep_consistent (c : Corpus) (K : ℕ) (g : ℕ → ℕ)
    (m i : ℕ) (hm : m < c.docs.length) (hi : i < twLen c m)
    (st : GState × ℕ)
    (h : Consistent (truncAt c m (docT (docAt c m) i)) st.1) :
    Consistent (truncAt c m (docT (docAt c m) (i + 1)))
      (initTopicStep K g c m i st).1 := by
  obtain ⟨hndk, hnkw, hnk, hntd, hnrs, hns⟩ := h
  have hmle : m ≤ c.docs.length := le_of_lt hm
  simp only [initTopicStep]
  set k₀ := g st.2 % K with hk₀
  set w₀ := twId c m i with hw₀
  set z' := setZ st.1.z m i k₀ with hz'
  have hz_other : ∀ d j, d ≠ m → z' d j = st.1.z d j := by
    intro d j hd
    simp [hz', setZ, hd]
  have hz_row : ∀ j, j ≠ i → z' m j = st.1.z m j := by
    intro j hj
    simp [hz', setZ, hj]
  have hz_i : z' m i = k₀ := by simp [hz', setZ]
  have hpre_row : ∀ k, ndkOf (truncAt c m (docT (docAt c m) i)) z' m k =
      ndkOf (truncAt c m (docT (docAt c m) i)) st.1.z m k := by
    intro k
    apply ndkOf_congr _ _ z' st.1.z m k rfl
    intro j hj
    rw [twLen_docT c m i hmle (le_of_lt hi)] at hj
    exact hz_row j (by omega)
  refine ⟨?_, ?_, ?_, ?_, ?_, ?_⟩
  · -- ndk
    intro d k
    show upd2 st.1.ndk m k₀ 1 d k =
      ndkOf (truncAt c m (docT (docAt c m) (i + 1))) z' d k
    by_cases hd : d = m
    · subst hd
      rw [ndkOf_docT_succ c d i hmle hi z' k, hpre_row k, ← hndk d k, hz_i]
      unfold upd2
      by_cases hk : k = k₀
      · simp [hk]
      · simp [hk, Ne.symm hk]
    · rw [upd2, if_neg (fun hc => hd hc.1)]
      rw [hndk d k]
      apply ndkOf_congr _ _ st.1.z z' d k
        (by rw [docAt_truncAt_ne c m d _ _ hmle hd])
        (fun j _ => (hz_other d j hd).symm)
  · -- nkw
    intro k w
    show upd2 st.1.nkw k₀ w₀ 1 k w =
      nkwOf (truncAt c m (docT (docAt c m) (i + 1))) z' k w
    rw [nkwOf_docT_succ c m i hmle hi z' k w, hz_i]
    have hpre : nkwOf (truncAt c m (docT (docAt c m) i)) z' k w =
        nkwOf (truncAt c m (docT (docAt c m) i)) st.1.z k w := by
      apply nkwOf_congr _ _ z' st.1.z k w rfl
      · intro d _
        rfl
      · intro d hd j hj
        by_cases hdm : d = m
        · rw [hdm] at hj ⊢
          rw [twLen_docT c m i hmle (le_of_lt hi)] at hj
          exact hz_row j (by omega)
        · exact hz_other d j hdm
    rw [hpre, ← hnkw k w]
    unfold upd2
    by_cases hk : k = k₀ ∧ w = w₀
    · obtain ⟨h1, h2⟩ := hk
      simp [h1, h2]
    · rw [if_neg hk, if_neg (fun hc => hk ⟨hc.1.symm, hc.2.symm⟩), add_zero]
  · -- nk
    intro k
    show upd1 st.1.nk k₀ 1 k =
      nkOf (truncAt c m (docT (docAt c m) (i + 1))) z' k
    rw [nkOf_docT_succ c m i hmle hi z' k, hz_i]
    have hpre : nkOf (truncAt c m (docT (docAt c m) i)) z' k =
        nkOf (truncAt c m (docT (docAt c m) i)) st.1.z k := by
      apply nkOf_congr _ _ z' st.1.z k rfl
      · intro d _
        rfl
      · intro d hd j hj
        by_cases hdm : d = m
        · rw [hdm] at hj ⊢
          rw [twLen_docT c m i hmle (le_of_lt hi)] at hj
          exact hz_row j (by omega)
        · exact hz_other d j hdm
    rw [hpre, ← hnk k]
    unfold upd1
    by_cases hk : k = k₀
    · simp [hk]
    · simp [hk, Ne.symm hk]
  · -- ntd
    intro d
    show upd1 st.1.ntd m 1 d =
      ntdOf (truncAt c m (docT (docAt c m) (i + 1))) d
    by_cases hd : d = m
    · subst hd
      rw [ntdOf_docT_self c d (i + 1) hmle hi]
      rw [upd1, if_pos rfl, hntd d, ntdOf_docT_self c d i hmle (le_of_lt hi)]
      push_cast
      ring
    · rw [upd1, if_neg hd, hntd d,
        ntdOf_truncAt_ne c m d _ _ hmle hd]
  · -- nrs
    intro p k w
    show st.1.nrs p k w =
      nrsOf (truncAt c m (docT (docAt c m) (i + 1))) st.1.x p k w
    rw [hnrs p k w]
    exact (nrsOf_docT_ext c m (i + 1) i hmle st.1.x p k w).symm
  · -- ns
    intro p k
    show st.1.ns p k =
      nsOf (truncAt c m (docT (docAt c m) (i + 1))) st.1.x p k
    rw [hns p k]
    exact (nsOf_docT_ext c m (i + 1) i hmle st.1.x p k).symm

theorem initOpinionStep_consistent (c : Corpus) (K : ℕ) (g : ℕ → ℕ)
    (m i : ℕ) (hm : m < c.docs.length) (hi : i < owLen c m)
    (hinj : ∀ d', d' < c.docs.length → d' ≠ m →
      (docAt c d').persp ≠ (docAt c m).persp ∨
      (docAt c d').dp ≠ (docAt c m).dp)
    (st : GState × ℕ)
    (h : Consistent (truncAt c m (docO (docAt c m) i)) st.1) :
    Consistent (truncAt c m (docO (docAt c m) (i + 1)))
      (initOpinionStep K g c m i st).1 := by
  obtain ⟨hndk, hnkw, hnk, hntd, hnrs, hns⟩ := h
  have hmle : m ≤ c.docs.length := le_of_lt hm
  simp only [initOpinionStep]
  set k₀ := g st.2 % K with hk₀
  set w₀ := owId c m i with hw₀
  set P := (docAt c m).persp with hP
  set DP := (docAt c m).dp with hDP
  set x' := setX st.1.x P DP i k₀ with hx'
  have hx_other : ∀ p dp j, ¬(p = P ∧ dp = DP ∧ j = i) →
      x' p dp j = st.1.x p dp j := by
    intro p dp j hc
    simp only [hx', setX, if_neg hc]
  have hx_i : x' P DP i = k₀ := by
    simp [hx', setX]
  have hxpre : ∀ p, ∀ d, d < (truncAt c m (docO (docAt c m) i)).docs.length →
      (docAt (truncAt c m (docO (docAt c m) i)) d).persp = p →
      ∀ j, j < owLen (truncAt c m (docO (docAt c m) i)) d →
      x' p (docAt (truncAt c m (docO (docAt c m) i)) d).dp j =
        st.1.x p (docAt (truncAt c m (docO (docAt c m) i)) d).dp j := by
    intro p d hd hpersp j hj
    rw [length_truncAt c m _ hmle] at hd
    by_cases hdm : d = m
    · rw [hdm] at hj hpersp ⊢
      rw [owLen_docO c m i hmle (le_of_lt hi)] at hj
      rw [docAt_truncAt_self c m _ hmle, docO_dp]
      exact hx_other p DP j (fun hc => by omega)
    · have hd' : d < m := by omega
      have hdlen : d < c.docs.length := by omega
      rw [docAt_truncAt_lt c m d _ hmle hd'] at hpersp ⊢
      by_cases hpP : p = P
      · rcases hinj d hdlen (by omega) with hne | hne
        · exact absurd (hpersp.trans hpP) hne
        · exact hx_other p _ j (fun hc => hne hc.2.1)
      · exact hx_other p _ j (fun hc => hpP hc.1)
  have hpreNrs : ∀ p k w,
      nrsOf (truncAt c m (docO (docAt c m) i)) x' p k w =
      nrsOf (truncAt c m (docO (docAt c m) i)) st.1.x p k w := by
    intro p k w
    exact nrsOf_congr _ _ x' st.1.x p k w rfl
      (fun d _ => ⟨rfl, rfl, rfl⟩) (hxpre p)
  have hpreNs : ∀ p k,
      nsOf (truncAt c m (docO (docAt c m) i)) x' p k =
      nsOf (truncAt c m (docO (docAt c m) i)) st.1.x p k := by
    intro p k
    exact nsOf_congr _ _ x' st.1.x p k rfl
      (fun d _ => ⟨rfl, rfl, rfl⟩) (hxpre p)
  refine ⟨?_, ?_, ?_, ?_, ?_, ?_⟩
  · intro d k
    show st.1.ndk d k =
      ndkOf (truncAt c m (docO (docAt c m) (i + 1))) st.1.z d k
    rw [hndk d k]
    exact (ndkOf_docO_ext c m (i + 1) i hmle st.1.z d k).symm
  · intro k w
    show st.1.nkw k w =
      nkwOf (truncAt c m (docO (docAt c m) (i + 1))) st.1.z k w
    rw [hnkw k w]
    exact (nkwOf_docO_ext c m (i + 1) i hmle st.1.z k w).symm
  · intro k
    show st.1.nk k =
      nkOf (truncAt c m (docO (docAt c m) (i + 1))) st.1.z k
    rw [hnk k]
    exact (nkOf_docO_ext c m (i + 1) i hmle st.1.z k).symm
  · intro d
    show st.1.ntd d =
      ntdOf (truncAt c m (docO (docAt c m) (i + 1))) d
    rw [hntd d]
    exact (ntdOf_docO_ext c m (i + 1) i hmle d).symm
  · intro p k w
    show upd3 st.1.nrs P k₀ w₀ 1 p k w =
      nrsOf (truncAt c m (docO (docAt c m) (i + 1))) x' p k w
    rw [nrsOf_docO_succ c m i hmle hi x' p k w, hpreNrs p k w, ← hnrs p k w,
      ← hP, ← hDP, ← hw₀]
    unfold upd3
    by_cases hpP : P = p
    · have hxi : x' p DP i = k₀ := by rw [← hpP]; exact hx_i
      rw [hxi]
      by_cases hk : k = k₀ ∧ w = w₀
      · rw [if_pos ⟨hpP.symm, hk.1, hk.2⟩,
          if_pos ⟨hpP, hk.1.symm, hk.2.symm⟩]
      · rw [if_neg (fun hc => hk ⟨hc.2.1, hc.2.2⟩),
          if_neg (fun hc => hk ⟨hc.2.1.symm, hc.2.2.symm⟩), add_zero]
    · rw [if_neg (fun hc => hpP hc.1.symm),
        if_neg (fun hc => hpP hc.1), add_zero]
  · intro p k
    show upd2 st.1.ns P k₀ 1 p k =
      nsOf (truncAt c m (docO (docAt c m) (i + 1))) x' p k
    rw [nsOf_docO_succ c m i hmle hi x' p k, hpreNs p k, ← hns p k,
      ← hP, ← hDP]
    unfold upd2
    by_cases hpP : P = p
    · have hxi : x' p DP i = k₀ := by rw [← hpP]; exact hx_i
      rw [hxi]
      by_cases hk : k = k₀
      · rw [if_pos ⟨hpP.symm, hk⟩, if_pos ⟨hpP, hk.symm⟩]
      · rw [if_neg (fun hc => hk hc.2),
          if_neg (fun hc => hk hc.2.symm), add_zero]
    · rw [if_neg (fun hc => hpP hc.1.symm),
        if_neg (fun hc => hpP hc.1), add_zero]

theorem setZ_other (z : ℕ → ℕ → ℕ) (d i knew : ℕ) :
    ∀ d' j, ¬(d' = d ∧ j = i) → setZ z d i knew d' j = z d' j := by
  intro d' j hc
  simp only [setZ, if_neg hc]

theorem setZ_self (z : ℕ → ℕ → ℕ) (d i knew : ℕ) :
    setZ z d i knew d i = knew := by
  simp [setZ]

theorem ndkOf_setZ_self (c : Corpus) (z : ℕ → ℕ → ℕ) (d i knew k : ℕ)
    (hi : i < twLen c d) :
    ndkOf c (setZ z d i knew) d k =
      ndkOf c z d k - (if z d i = k then 1 else 0) +
        (if knew = k then 1 else 0) := by
  unfold ndkOf
  have h := sum_update_point (twLen c d) i hi
    (fun j => if z d j = k then (1:ℤ) else 0)
    (fun j => if setZ z d i knew d j = k then (1:ℤ) else 0)
    (fun j hj => by
      simp only []
      rw [setZ_other z d i knew d j (fun hc => hj hc.2)])
  simp only [] at h
  rw [setZ_self] at h
  exact h

theorem ndkOf_setZ_other (c : Corpus) (z : ℕ → ℕ → ℕ) (d i knew d' k : ℕ)
    (hd' : d' ≠ d) :
    ndkOf c (setZ z d i knew) d' k = ndkOf c z d' k :=
  ndkOf_congr c c _ z d' k rfl
    (fun j _ => setZ_other z d i knew d' j (fun hc => hd' hc.1))

theorem nkwOf_setZ (c : Corpus) (z : ℕ → ℕ → ℕ) (d i knew k w : ℕ)
    (hd : d < c.docs.length) (hi : i < twLen c d) :
    nkwOf c (setZ z d i knew) k w =
      nkwOf c z k w -
        (if z d i = k ∧ twId c d i = w then 1 else 0) +
        (if knew = k ∧ twId c d i = w then 1 else 0) := by
  unfold nkwOf
  have hrow : ∀ d', d' ≠ d →
      (∑ j ∈ Finset.range (twLen c d'),
        if setZ z d i knew d' j = k ∧ twId c d' j = w then (1:ℤ) else 0) =
      (∑ j ∈ Finset.range (twLen c d'),
        if z d' j = k ∧ twId c d' j = w then (1:ℤ) else 0) := by
    intro d' hd'
    exact Finset.sum_congr rfl (fun j _ => by
      rw [setZ_other z d i knew d' j (fun hc => hd' hc.1)])
  have houter := sum_update_point c.docs.length d hd
    (fun d' => ∑ j ∈ Finset.range (twLen c d'),
      if z d' j = k ∧ twId c d' j = w then (1:ℤ) else 0)
    (fun d' => ∑ j ∈ Finset.range (twLen c d'),
      if setZ z d i knew d' j = k ∧ twId c d' j = w then (1:ℤ) else 0)
    (fun d' hd' => by
      simp only []
      exact hrow d' hd')
  have hdrow := sum_update_point (twLen c d) i hi
    (fun j => if z d j = k ∧ twId c d j = w then (1:ℤ) else 0)
    (fun j => if setZ z d i knew d j = k ∧ twId c d j = w then (1:ℤ) else 0)
    (fun j hj => by
      simp only []
      rw [setZ_other z d i knew d j (fun hc => hj hc.2)])
  simp only [] at hdrow
  rw [setZ_self] at hdrow
  simp only [] at houter hdrow
  rw [houter, hdrow]
  ring

theorem nkOf_setZ (c : Corpus) (z : ℕ → ℕ → ℕ) (d i knew k : ℕ)
    (hd : d < c.docs.length) (hi : i < twLen c d) :
    nkOf c (setZ z d i knew) k =
      nkOf c z k - (if z d i = k then 1 else 0) +
        (if knew = k then 1 else 0) := by
  unfold nkOf
  have houter := sum_update_point c.docs.length d hd
    (fun d' => ndkOf c z d' k)
    (fun d' => ndkOf c (setZ z d i knew) d' k)
    (fun d' hd' => by
      simp only []
      exact ndkOf_setZ_other c z d i knew d' k hd')
  simp only [] at houter
  rw [houter, ndkOf_setZ_self c z d i knew k hi]
  ring

theorem setX_other (x : ℕ → ℕ → ℕ → ℕ) (P DP i knew : ℕ) :
    ∀ p dp j, ¬(p = P ∧ dp = DP ∧ j = i) →
      setX x P DP i knew p dp j = x p dp j := by
  intro p dp j hc
  simp only [setX, if_neg hc]

theorem setX_self (x : ℕ → ℕ → ℕ → ℕ) (P DP i knew : ℕ) :
    setX x P DP i knew P DP i = knew := by
  simp [setX]

theorem nrsOf_setX (c : Corpus) (x : ℕ → ℕ → ℕ → ℕ) (d i knew p k w : ℕ)
    (hd : d < c.docs.length) (hi : i < owLen c d)
    (hinj : ∀ d', d' < c.docs.length → d' ≠ d →
      (docAt c d').persp ≠ (docAt c d).persp ∨
      (docAt c d').dp ≠ (docAt c d).dp) :
    nrsOf c (setX x (docAt c d).persp (docAt c d).dp i knew) p k w =
      nrsOf c x p k w -
        (if (docAt c d).persp = p ∧ x p (docAt c d).dp i = k ∧
          owId c d i = w then 1 else 0) +
        (if (docAt c d).persp = p ∧ knew = k ∧ owId c d i = w
          then 1 else 0) := by
  set P := (docAt c d).persp with hP
  set DP := (docAt c d).dp with hDP
  set x' := setX x P DP i knew with hx'
  by_cases hpP : P = p
  · unfold nrsOf
    have houter := sum_update_point c.docs.length d hd
      (fun d' => if (docAt c d').persp = p then
        ∑ j ∈ Finset.range (owLen c d'),
          if x p (docAt c d').dp j = k ∧ owId c d' j = w then (1:ℤ) else 0
        else 0)
      (fun d' => if (docAt c d').persp = p then
        ∑ j ∈ Finset.range (owLen c d'),
          if x' p (docAt c d').dp j = k ∧ owId c d' j = w then (1:ℤ) else 0
        else 0)
      (fun d' hd' => by
        simp only []
        by_cases hq : (docAt c d').persp = p
        · simp only [hq, if_true]
          apply Finset.sum_congr rfl
          intro j hj
          by_cases hd'len : d' < c.docs.length
          · rcases hinj d' hd'len hd' with hne | hne
            · exact absurd (hq.trans hpP.symm) hne
            · rw [hx', setX_other x P DP i knew p _ j
                (fun hc => hne (hc.2.1.trans hDP.symm))]
          · exfalso
            have h0 : owLen c d' = 0 := by
              unfold owLen
              rw [docAt_ge c d' (by omega)]
              rfl
            rw [h0] at hj
            simp at hj
        · simp [hq])
    simp only [] at houter
    rw [houter]
    have hdterm : (if (docAt c d).persp = p then
        ∑ j ∈ Finset.range (owLen c d),
          if x' p (docAt c d).dp j = k ∧ owId c d j = w then (1:ℤ) else 0
        else 0) =
        (if (docAt c d).persp = p then
        ∑ j ∈ Finset.range (owLen c d),
          if x p (docAt c d).dp j = k ∧ owId c d j = w then (1:ℤ) else 0
        else 0) -
        (if P = p ∧ x p DP i = k ∧ owId c d i = w then 1 else 0) +
        (if P = p ∧ knew = k ∧ owId c d i = w then 1 else 0) := by
      rw [← hP, ← hDP]
      simp only [hpP, if_true, true_and]
      have hrow := sum_update_point (owLen c d) i hi
        (fun j => if x p DP j = k ∧ owId c d j = w then (1:ℤ) else 0)
        (fun j => if x' p DP j = k ∧ owId c d j = w then (1:ℤ) else 0)
        (fun j hj => by
          simp only []
          rw [hx', setX_other x P DP i knew p DP j (fun hc => hj hc.2.2)])
      simp only [] at hrow
      have hxi : x' p DP i = knew := by
        rw [hx', ← hpP]
        exact setX_self x P DP i knew
      rw [hxi] at hrow
      exact hrow
    rw [hdterm]
    ring
  · have hzero1 : (if P = p ∧ x p DP i = k ∧ owId c d i = w
        then (1:ℤ) else 0) = 0 := by
      rw [if_neg (fun hc => hpP hc.1)]
    have hzero2 : (if P = p ∧ knew = k ∧ owId c d i = w
        then (1:ℤ) else 0) = 0 := by
      rw [if_neg (fun hc => hpP hc.1)]
    rw [hzero1, hzero2, sub_zero, add_zero]
    apply nrsOf_congr c c x' x p k w rfl (fun _ _ => ⟨rfl, rfl, rfl⟩)
    intro d' _ hq j _
    exact setX_other x P DP i knew p _ j (fun hc => hpP (hc.1.symm))

theorem nsOf_setX (c : Corpus) (x : ℕ → ℕ → ℕ → ℕ) (d i knew p k : ℕ)
    (hd : d < c.docs.length) (hi : i < owLen c d)
    (hinj : ∀ d', d' < c.docs.length → d' ≠ d →
      (docAt c d').persp ≠ (docAt c d).persp ∨
      (docAt c d').dp ≠ (docAt c d).dp) :
    nsOf c (setX x (docAt c d).persp (docAt c d).dp i knew) p k =
      nsOf c x p k -
        (if (docAt c d).persp = p ∧ x p (docAt c d).dp i = k
          then 1 else 0) +
        (if (docAt c d).persp = p ∧ knew = k then 1 else 0) := by
  set P := (docAt c d).persp with hP
  set DP := (docAt c d).dp with hDP
  set x' := setX x P DP i knew with hx'
  by_cases hpP : P = p
  · unfold nsOf
    have houter := sum_update_point c.docs.length d hd
      (fun d' => if (docAt c d').persp = p then
        ∑ j ∈ Finset.range (owLen c d'),
          if x p (docAt c d').dp j = k then (1:ℤ) else 0
        else 0)
      (fun d' => if (docAt c d').persp = p then
        ∑ j ∈ Finset.range (owLen c d'),
          if x' p (docAt c d').dp j = k then (1:ℤ) else 0
        else 0)
      (fun d' hd' => by
        simp only []
        by_cases hq : (docAt c d').persp = p
        · simp only [hq, if_true]
          apply Finset.sum_congr rfl
          intro j hj
          by_cases hd'len : d' < c.docs.length
          · rcases hinj d' hd'len hd' with hne | hne
            · exact absurd (hq.trans hpP.symm) hne
            · rw [hx', setX_other x P DP i knew p _ j
                (fun hc => hne (hc.2.1.trans hDP.symm))]
          · exfalso
            have h0 : owLen c d' = 0 := by
              unfold owLen
              rw [docAt_ge c d' (by omega)]
              rfl
            rw [h0] at hj
            simp at hj
        · simp [hq])
    simp only [] at houter
    rw [houter]
    have hdterm : (if (docAt c d).persp = p then
        ∑ j ∈ Finset.range (owLen c d),
          if x' p (docAt c d).dp j = k then (1:ℤ) else 0
        else 0) =
        (if (docAt c d).persp = p then
        ∑ j ∈ Finset.range (owLen c d),
          if x p (docAt c d).dp j = k then (1:ℤ) else 0
        else 0) -
        (if P = p ∧ x p DP i = k then 1 else 0) +
        (if P = p ∧ knew = k then 1 else 0) := by
      rw [← hP, ← hDP]
      simp only [hpP, if_true, true_and]
      have hrow := sum_update_point (owLen c d) i hi
        (fun j => if x p DP j = k then (1:ℤ) else 0)
        (fun j => if x' p DP j = k then (1:ℤ) else 0)
        (fun j hj => by
          simp only []
          rw [hx', setX_other x P DP i knew p DP j (fun hc => hj hc.2.2)])
      simp only [] at hrow
      have hxi : x' p DP i = knew := by
        rw [hx', ← hpP]
        exact setX_self x P DP i knew
      rw [hxi] at hrow
      exact hrow
    rw [hdterm]
    ring
  · have hzero1 : (if P = p ∧ x p DP i = k then (1:ℤ) else 0) = 0 := by
      rw [if_neg (fun hc => hpP hc.1)]
    have hzero2 : (if P = p ∧ knew = k then (1:ℤ) else 0) = 0 := by
      rw [if_neg (fun hc => hpP hc.1)]
    rw [hzero1, hzero2, sub_zero, add_zero]
    apply nsOf_congr c c x' x p k rfl (fun _ _ => ⟨rfl, rfl, rfl⟩)
    intro d' _ hq j _
    exact setX_other x P DP i knew p _ j (fun hc => hpP (hc.1.symm))

theorem ite_flip (a b : ℕ) : (if a = b then (1:ℤ) else 0) =
    (if b = a then 1 else 0) := by
  by_cases h : a = b
  · simp [h]
  · simp [h, Ne.symm h]

theorem sweepTopicStep_inv (c : Corpus) (K VT : ℕ) (alpha beta : ℚ)
    (u : ℕ → ℚ) (d i : ℕ)
    (hK : 0 < K) (hVT : 0 < VT) (ha : 0 < alpha) (hb : 0 < beta)
    (hu : ∀ t, 0 ≤ u t ∧ u t < 1)
    (hd : d < c.docs.length) (hi : i < twLen c d) (st : GState × ℕ)
    (h : Consistent c st.1 ∧ InRange K st.1) :
    Consistent c (sweepTopicStep K VT alpha beta u c d i st).1 ∧
      InRange K (sweepTopicStep K VT alpha beta u c d i st).1 := by
  obtain ⟨⟨hndk, hnkw, hnk, hntd, hnrs, hns⟩, hzr, hxr⟩ := h
  simp only [sweepTopicStep, removeTopic, insertTopic]
  set w₀ := twId c d i with hw₀
  set k₀ := st.1.z d i with hk₀
  set s1 : GState :=
    { st.1 with
        ndk := upd2 st.1.ndk d k₀ (-1)
        nkw := upd2 st.1.nkw k₀ w₀ (-1)
        nk := upd1 st.1.nk k₀ (-1) } with hs1
  set knew := sample_from (p_z K VT alpha beta s1 d w₀) (u st.2) with hknew
  have hndk1 : ∀ k, k < K → 0 ≤ s1.ndk d k := by
    intro k hk
    show (0:ℤ) ≤ upd2 st.1.ndk d k₀ (-1) d k
    unfold upd2
    by_cases hkk : k = k₀
    · rw [if_pos ⟨rfl, hkk⟩, hndk d k, hkk]
      have := ndkOf_ge_one c st.1.z d k₀ i hi hk₀.symm
      omega
    · rw [if_neg (fun hc => hkk hc.2), hndk d k]
      exact ndkOf_nonneg c st.1.z d k
  have hnkw1 : ∀ k, k < K → 0 ≤ s1.nkw k w₀ := by
    intro k hk
    show (0:ℤ) ≤ upd2 st.1.nkw k₀ w₀ (-1) k w₀
    unfold upd2
    by_cases hkk : k = k₀
    · rw [if_pos ⟨hkk, rfl⟩, hnkw k w₀, hkk]
      have := nkwOf_ge_one c st.1.z d k₀ i w₀ hd hi hk₀.symm hw₀.symm
      omega
    · rw [if_neg (fun hc => hkk hc.1), hnkw k w₀]
      exact nkwOf_nonneg c st.1.z k w₀
  have hnk1 : ∀ k, k < K → 0 ≤ s1.nk k := by
    intro k hk
    show (0:ℤ) ≤ upd1 st.1.nk k₀ (-1) k
    unfold upd1
    by_cases hkk : k = k₀
    · rw [if_pos hkk, hnk k, hkk]
      have := nkOf_ge_one c st.1.z d k₀ i hd hi hk₀.symm
      omega
    · rw [if_neg hkk, hnk k]
      exact nkOf_nonneg c st.1.z k
  have hsum : 0 < ∑ k' ∈ Finset.range K, pzW K VT alpha beta s1 d w₀ k' :=
    pzW_sum_pos K VT alpha beta s1 d w₀ hK hVT ha hb hndk1 hnkw1 hnk1
  have hp1 : (p_z K VT alpha beta s1 d w₀).sum = 1 :=
    p_z_sum K VT alpha beta s1 d w₀ (ne_of_gt hsum)
  have hne : p_z K VT alpha beta s1 d w₀ ≠ [] := by
    intro hnil
    have := p_z_length K VT alpha beta s1 d w₀
    rw [hnil] at this
    simp at this
    omega
  have hklt : knew < K := by
    rw [hknew]
    have := sample_from_lt_length (p_z K VT alpha beta s1 d w₀) (u st.2)
      hne (by rw [hp1]; exact le_of_lt (hu st.2).2)
    rwa [p_z_length] at this
  refine ⟨⟨?_, ?_, ?_, ?_, ?_, ?_⟩, ?_, ?_⟩
  · -- ndk
    intro d' k
    show upd2 (upd2 st.1.ndk d k₀ (-1)) d knew 1 d' k =
      ndkOf c (setZ st.1.z d i knew) d' k
    by_cases hdd : d' = d
    · subst hdd
      rw [ndkOf_setZ_self c st.1.z d' i knew k hi, ← hndk d' k, ← hk₀]
      unfold upd2
      split_ifs <;> omega
    · rw [ndkOf_setZ_other c st.1.z d i knew d' k hdd, ← hndk d' k]
      unfold upd2
      rw [if_neg (fun hc => hdd hc.1), if_neg (fun hc => hdd hc.1)]
  · -- nkw
    intro k w
    show upd2 (upd2 st.1.nkw k₀ w₀ (-1)) knew w₀ 1 k w =
      nkwOf c (setZ st.1.z d i knew) k w
    rw [nkwOf_setZ c st.1.z d i knew k w hd hi, ← hnkw k w, ← hk₀, ← hw₀]
    unfold upd2
    split_ifs <;> omega
  · -- nk
    intro k
    show upd1 (upd1 st.1.nk k₀ (-1)) knew 1 k =
      nkOf c (setZ st.1.z d i knew) k
    rw [nkOf_setZ c st.1.z d i knew k hd hi, ← hnk k, ← hk₀]
    unfold upd1
    split_ifs <;> omega
  · -- ntd
    intro d'
    exact hntd d'
  · -- nrs
    intro p k w
    exact hnrs p k w
  · -- ns
    intro p k
    exact hns p k
  · -- z in range
    intro d' i'
    show setZ st.1.z d i knew d' i' < K
    unfold setZ
    by_cases hc : d' = d ∧ i' = i
    · rw [if_pos hc]
      exact hklt
    · rw [if_neg hc]
      exact hzr d' i'
  · -- x in range
    intro p dp i'
    exact hxr p dp i'

theorem sweepOpinionStep_inv (c : Corpus) (K VO : ℕ) (beta_o : ℚ)
    (u : ℕ → ℚ) (d i : ℕ)
    (hK : 0 < K) (hVO : 0 < VO) (hbo : 0 < beta_o)
    (hu : ∀ t, 0 ≤ u t ∧ u t < 1)
    (hd : d < c.docs.length) (hi : i < owLen c d)
    (hdeg : (docAt c d).topicWords ≠ [])
    (hinj : ∀ d', d' < c.docs.length → d' ≠ d →
      (docAt c d').persp ≠ (docAt c d).persp ∨
      (docAt c d').dp ≠ (docAt c d).dp)
    (st : GState × ℕ)
    (h : Consistent c st.1 ∧ InRange K st.1) :
    Consistent c (sweepOpinionStep K VO beta_o u c d i st).1 ∧
      InRange K (sweepOpinionStep K VO beta_o u c d i st).1 := by
  obtain ⟨⟨hndk, hnkw, hnk, hntd, hnrs, hns⟩, hzr, hxr⟩ := h
  simp only [sweepOpinionStep, removeOpinion, insertOpinion]
  set P := (docAt c d).persp with hP
  set DP := (docAt c d).dp with hDP
  set w₀ := owId c d i with hw₀
  set k₀ := st.1.x P DP i with hk₀
  set s1 : GState :=
    { st.1 with
        nrs := upd3 st.1.nrs P k₀ w₀ (-1)
        ns := upd2 st.1.ns P k₀ (-1) } with hs1
  set knew := sample_from (p_x K VO beta_o s1 P d w₀) (u st.2) with hknew
  have hnrs1 : ∀ k, k < K → 0 ≤ s1.nrs P k w₀ := by
    intro k hk
    show (0:ℤ) ≤ upd3 st.1.nrs P k₀ w₀ (-1) P k w₀
    unfold upd3
    by_cases hkk : k = k₀
    · rw [if_pos ⟨rfl, hkk, rfl⟩, hnrs P k w₀, hkk]
      have := nrsOf_ge_one c st.1.x d P k₀ i w₀ hd hP.symm hi hk₀.symm hw₀.symm
      omega
    · rw [if_neg (fun hc => hkk hc.2.1), hnrs P k w₀]
      exact nrsOf_nonneg c st.1.x P k w₀
  have hns1 : ∀ k, k < K → 0 ≤ s1.ns P k := by
    intro k hk
    show (0:ℤ) ≤ upd2 st.1.ns P k₀ (-1) P k
    unfold upd2
    by_cases hkk : k = k₀
    · rw [if_pos ⟨rfl, hkk⟩, hns P k, hkk]
      have := nsOf_ge_one c st.1.x d P k₀ i hd hP.symm hi hk₀.symm
      omega
    · rw [if_neg (fun hc => hkk hc.2), hns P k]
      exact nsOf_nonneg c st.1.x P k
  have hndk1 : ∀ k, k < K → 0 ≤ s1.ndk d k := by
    intro k _
    show (0:ℤ) ≤ st.1.ndk d k
    rw [hndk d k]
    exact ndkOf_nonneg c st.1.z d k
  have hrow : (∑ k' ∈ Finset.range K, s1.ndk d k') = s1.ntd d := by
    show (∑ k' ∈ Finset.range K, st.1.ndk d k') = st.1.ntd d
    rw [Finset.sum_congr rfl (fun k _ => hndk d k), hntd d]
    exact sum_ndkOf c st.1.z d K (fun j => hzr d j)
  have hntd_pos : 0 < s1.ntd d := by
    show (0:ℤ) < st.1.ntd d
    rw [hntd d]
    unfold ntdOf twLen
    exact_mod_cast List.length_pos.mpr hdeg
  have hsum : 0 < ∑ k' ∈ Finset.range K, pxW VO beta_o s1 P d w₀ k' :=
    pxW_sum_pos K VO beta_o s1 P d w₀ hVO hbo hnrs1 hns1 hndk1 hrow hntd_pos
  have hp1 : (p_x K VO beta_o s1 P d w₀).sum = 1 :=
    p_x_sum K VO beta_o s1 P d w₀ (ne_of_gt hsum)
  have hne : p_x K VO beta_o s1 P d w₀ ≠ [] := by
    intro hnil
    have := p_x_length K VO beta_o s1 P d w₀
    rw [hnil] at this
    simp at this
    omega
  have hklt : knew < K := by
    rw [hknew]
    have := sample_from_lt_length (p_x K VO beta_o s1 P d w₀) (u st.2)
      hne (by rw [hp1]; exact le_of_lt (hu st.2).2)
    rwa [p_x_length] at this
  refine ⟨⟨?_, ?_, ?_, ?_, ?_, ?_⟩, ?_, ?_⟩
  · intro d' k
    exact hndk d' k
  · intro k w
    exact hnkw k w
  · intro k
    exact hnk k
  · intro d'
    exact hntd d'
  · -- nrs
    intro p k w
    show upd3 (upd3 st.1.nrs P k₀ w₀ (-1)) P knew w₀ 1 p k w =
      nrsOf c (setX st.1.x P DP i knew) p k w
    have hsetx : setX st.1.x P DP i knew =
        setX st.1.x (docAt c d).persp (docAt c d).dp i knew := by
      rw [← hP, ← hDP]
    rw [hsetx, nrsOf_setX c st.1.x d i knew p k w hd hi hinj,
      ← hnrs p k w, ← hP, ← hDP, ← hw₀]
    unfold upd3
    by_cases hpP : P = p
    · have hxx : st.1.x p DP i = k₀ := by rw [← hpP]
      rw [hxx]
      split_ifs <;> omega
    · split_ifs <;> omega
  · -- ns
    intro p k
    show upd2 (upd2 st.1.ns P k₀ (-1)) P knew 1 p k =
      nsOf c (setX st.1.x P DP i knew) p k
    have hsetx : setX st.1.x P DP i knew =
        setX st.1.x (docAt c d).persp (docAt c d).dp i knew := by
      rw [← hP, ← hDP]
    rw [hsetx, nsOf_setX c st.1.x d i knew p k hd hi hinj,
      ← hns p k, ← hP, ← hDP]
    unfold upd2
    by_cases hpP : P = p
    · have hxx : st.1.x p DP i = k₀ := by rw [← hpP]
      rw [hxx]
      split_ifs <;> omega
    · split_ifs <;> omega
  · intro d' i'
    exact hzr d' i'
  · intro p dp i'
    show setX st.1.x P DP i knew p dp i' < K
    unfold setX
    by_cases hc : p = P ∧ dp = DP ∧ i' = i
    · rw [if_pos hc]
      exact hklt
    · rw [if_neg hc]
      exact hxr p dp i'

theorem initTopicStep_inRange (c : Corpus) (K : ℕ) (g : ℕ → ℕ) (d i : ℕ)
    (hK : 0 < K) (st : GState × ℕ) (h : InRange K st.1) :
    InRange K (initTopicStep K g c d i st).1 := by
  obtain ⟨hz, hx⟩ := h
  simp only [initTopicStep]
  refine ⟨?_, ?_⟩
  · intro d' i'
    show setZ st.1.z d i (g st.2 % K) d' i' < K
    unfold setZ
    split
    · exact Nat.mod_lt _ hK
    · exact hz d' i'
  · intro p dp i'
    exact hx p dp i'

theorem initOpinionStep_inRange (c : Corpus) (K : ℕ) (g : ℕ → ℕ) (d i : ℕ)
    (hK : 0 < K) (st : GState × ℕ) (h : InRange K st.1) :
    InRange K (initOpinionStep K g c d i st).1 := by
  obtain ⟨hz, hx⟩ := h
  simp only [initOpinionStep]
  refine ⟨?_, ?_⟩
  · intro d' i'
    exact hz d' i'
  · intro p dp i'
    show setX st.1.x (docAt c d).persp (docAt c d).dp i (g st.2 % K) p dp i' < K
    unfold setX
    split
    · exact Nat.mod_lt _ hK
    · exact hx p dp i'

theorem consistent_trunc_zero (c : Corpus) : Consistent (trunc c 0) initGState := by
  refine ⟨?_, ?_, ?_, ?_, ?_, ?_⟩ <;>
    intros <;>
    simp [initGState, ndkOf, nkwOf, nkOf, ntdOf, nrsOf, nsOf,
      trunc, docAt, twLen, owLen, emptyDoc]

theorem initDocStep_inv (c : Corpus) (K : ℕ) (g : ℕ → ℕ) (m : ℕ)
    (hm : m < c.docs.length) (hK : 0 < K)
    (hinj : ∀ d', d' < c.docs.length → d' ≠ m →
      (docAt c d').persp ≠ (docAt c m).persp ∨
      (docAt c d').dp ≠ (docAt c m).dp)
    (st : GState × ℕ)
    (h : Consistent (trunc c m) st.1 ∧ InRange K st.1) :
    Consistent (trunc c (m + 1)) (initDocStep K g c m st).1 ∧
      InRange K (initDocStep K g c m st).1 := by
  have hmle : m ≤ c.docs.length := le_of_lt hm
  have hstart : Consistent (truncAt c m (docT (docAt c m) 0)) st.1 := by
    obtain ⟨⟨h1, h2, h3, h4, h5, h6⟩, _⟩ := h
    exact ⟨fun d k => (h1 d k).trans (ndkOf_start c m hmle st.1.z d k).symm,
      fun k w => (h2 k w).trans (nkwOf_start c m hmle st.1.z k w).symm,
      fun k => (h3 k).trans (nkOf_start c m hmle st.1.z k).symm,
      fun d => (h4 d).trans (ntdOf_start c m hmle d).symm,
      fun p k w => (h5 p k w).trans (nrsOf_start c m hmle st.1.x p k w).symm,
      fun p k => (h6 p k).trans (nsOf_start c m hmle st.1.x p k).symm⟩
  have hphaseT := iterTokens_ind
    (fun n a => Consistent (truncAt c m (docT (docAt c m) n)) a.1 ∧
      InRange K a.1)
    (initTopicStep K g c m) (twLen c m)
    (fun n a hn ha =>
      ⟨initTopicStep_consistent c K g m n hm hn a ha.1,
       initTopicStep_inRange c K g m n hK a ha.2⟩)
    st ⟨hstart, h.2⟩
  simp only [] at hphaseT
  rw [truncAt_docT_full c m] at hphaseT
  have hphaseO := iterTokens_ind
    (fun n a => Consistent (truncAt c m (docO (docAt c m) n)) a.1 ∧
      InRange K a.1)
    (initOpinionStep K g c m) (owLen c m)
    (fun n a hn ha =>
      ⟨initOpinionStep_consistent c K g m n hm hn hinj a ha.1,
       initOpinionStep_inRange c K g m n hK a ha.2⟩)
    (iterTokens (initTopicStep K g c m) (twLen c m) st) hphaseT
  simp only [] at hphaseO
  rw [truncAt_docO_full c m hm] at hphaseO
  exact hphaseO

theorem initState_inv (c : Corpus) (K : ℕ) (g : ℕ → ℕ) (hK : 0 < K)
    (hinj : ∀ d1 d2, d1 < c.docs.length → d2 < c.docs.length → d1 ≠ d2 →
      (docAt c d1).persp ≠ (docAt c d2).persp ∨
      (docAt c d1).dp ≠ (docAt c d2).dp) :
    Consistent c (initState K g c) ∧ InRange K (initState K g c) := by
  have h := iterTokens_ind
    (fun m a => Consistent (trunc c m) a.1 ∧ InRange K a.1)
    (initDocStep K g c) c.docs.length
    (fun m a hm ha =>
      initDocStep_inv c K g m hm hK
        (fun d' hd' hne => hinj d' m hd' hm hne) a ha)
    (initGState, 0)
    ⟨consistent_trunc_zero c, ⟨fun _ _ => hK, fun _ _ _ => hK⟩⟩
  simp only [] at h
  rw [trunc_length_eq c] at h
  exact h

theorem sweepTopicDoc_inv (c : Corpus) (K VT : ℕ) (alpha beta : ℚ)
    (u : ℕ → ℚ) (d : ℕ)
    (hK : 0 < K) (hVT : 0 < VT) (ha : 0 < alpha) (hb : 0 < beta)
    (hu : ∀ t, 0 ≤ u t ∧ u t < 1) (hd : d < c.docs.length)
    (st : GState × ℕ) (h : Consistent c st.1 ∧ InRange K st.1) :
    Consistent c (sweepTopicDoc K VT alpha beta u c d st).1 ∧
      InRange K (sweepTopicDoc K VT alpha beta u c d st).1 :=
  iterTokens_inv (fun a => Consistent c a.1 ∧ InRange K a.1)
    (sweepTopicStep K VT alpha beta u c d) (twLen c d)
    (fun i a hi ha' =>
      sweepTopicStep_inv c K VT alpha beta u d i hK hVT ha hb hu hd hi a ha')
    st h

theorem sweepOpinionDoc_inv (c : Corpus) (K VO VT : ℕ) (beta_o : ℚ)
    (u : ℕ → ℚ) (p d : ℕ)
    (hK : 0 < K) (hVO : 0 < VO) (hbo : 0 < beta_o)
    (hu : ∀ t, 0 ≤ u t ∧ u t < 1) (hd : d < c.docs.length)
    (hv : ValidCorpus c VT VO)
    (st : GState × ℕ) (h : Consistent c st.1 ∧ InRange K st.1) :
    Consistent c (sweepOpinionDoc K VO beta_o u c p d st).1 ∧
      InRange K (sweepOpinionDoc K VO beta_o u c p d st).1 := by
  unfold sweepOpinionDoc
  split
  · apply iterTokens_inv (fun a => Consistent c a.1 ∧ InRange K a.1)
      (sweepOpinionStep K VO beta_o u c d) (owLen c d) _ st h
    intro i a hi ha'
    have hdeg : (docAt c d).topicWords ≠ [] := by
      apply (hv.1 d hd).2.2.1
      intro hnil
      unfold owLen at hi
      rw [hnil] at hi
      simp at hi
    have hinj : ∀ d', d' < c.docs.length → d' ≠ d →
        (docAt c d').persp ≠ (docAt c d).persp ∨
        (docAt c d').dp ≠ (docAt c d).dp :=
      fun d' hd' hne => hv.2 d' d hd' hd hne
    exact sweepOpinionStep_inv c K VO beta_o u d i hK hVO hbo hu hd hi
      hdeg hinj a ha'
  · exact h

theorem sweep_inv (c : Corpus) (K VT VO : ℕ) (alpha beta beta_o : ℚ)
    (u : ℕ → ℚ)
    (hK : 0 < K) (hVT : 0 < VT) (hVO : 0 < VO)
    (ha : 0 < alpha) (hb : 0 < beta) (hbo : 0 < beta_o)
    (hu : ∀ t, 0 ≤ u t ∧ u t < 1) (hv : ValidCorpus c VT VO)
    (st : GState × ℕ) (h : Consistent c st.1 ∧ InRange K st.1) :
    Consistent c (sweep K VT VO alpha beta beta_o u c st).1 ∧
      InRange K (sweep K VT VO alpha beta beta_o u c st).1 := by
  unfold sweep
  apply iterTokens_inv (fun a => Consistent c a.1 ∧ InRange K a.1)
    (sweepOpinionPersp K VO beta_o u c) c.nPersp
  · intro p a _ ha'
    exact iterTokens_inv (fun a => Consistent c a.1 ∧ InRange K a.1)
      (sweepOpinionDoc K VO beta_o u c p) c.docs.length
      (fun d a' hd ha'' =>
        sweepOpinionDoc_inv c K VO VT beta_o u p d hK hVO hbo hu hd hv a' ha'')
      a ha'
  · exact iterTokens_inv (fun a => Consistent c a.1 ∧ InRange K a.1)
      (sweepTopicDoc K VT alpha beta u c) c.docs.length
      (fun d a hd ha' =>
        sweepTopicDoc_inv c K VT alpha beta u d hK hVT ha hb hu hd a ha')
      st h

theorem stateAfter_inv (c : Corpus) (K VT VO : ℕ) (alpha beta beta_o : ℚ)
    (g : ℕ → ℕ) (u : ℕ → ℚ) (n : ℕ)
    (hK : 0 < K) (hVT : 0 < VT) (hVO : 0 < VO)
    (ha : 0 < alpha) (hb : 0 < beta) (hbo : 0 < beta_o)
    (hu : ∀ t, 0 ≤ u t ∧ u t < 1) (hv : ValidCorpus c VT VO) :
    Consistent c (stateAfter K VT VO alpha beta beta_o c g u n).1 ∧
      InRange K (stateAfter K VT VO alpha beta beta_o c g u n).1 := by
  induction n with
  | zero => exact initState_inv c K g hK hv.2
  | succ m ih =>
      exact sweep_inv c K VT VO alpha beta beta_o u hK hVT hVO ha hb hbo
        hu hv _ ih

/-- **C1.** For every state reachable by `_initialize()` followed by any
number `n` of sampling sweeps (sweeps modelled from design §4.3 because the
compiled kernel `gibbs_inner` is not part of the repository sources), the
count tables are consistent derived aggregates of the assignment arrays:
`sum_k ndk[d][k] = ntd[d]` for every document `d`, `sum_w nkw[k][w] = nk[k]`
for every topic `k`, and `sum_w nrs[p][k][w] = ns[p][k]` for every
perspective `p` and topic `k`.  Hypotheses: positive topic count,
vocabulary sizes and hyperparameters, a corpus satisfying the adapter
contract (`ValidCorpus`), and uniform draws in `[0,1)`. -/
theorem C1_count_invariants (c : Corpus) (K VT VO : ℕ)
    (alpha beta beta_o : ℚ) (g : ℕ → ℕ) (u : ℕ → ℚ) (n : ℕ)
    (hK : 0 < K) (hVT : 0 < VT) (hVO : 0 < VO)
    (ha : 0 < alpha) (hb : 0 < beta) (hbo : 0 < beta_o)
    (hv : ValidCorpus c VT VO) (hu : ∀ t, 0 ≤ u t ∧ u t < 1) :
    (∀ d, (∑ k ∈ Finset.range K,
        (stateAfter K VT VO alpha beta beta_o c g u n).1.ndk d k) =
      (stateAfter K VT VO alpha beta beta_o c g u n).1.ntd d) ∧
    (∀ k, (∑ w ∈ Finset.range VT,
        (stateAfter K VT VO alpha beta beta_o c g u n).1.nkw k w) =
      (stateAfter K VT VO alpha beta beta_o c g u n).1.nk k) ∧
    (∀ p k, (∑ w ∈ Finset.range VO,
        (stateAfter K VT VO alpha beta beta_o c g u n).1.nrs p k w) =
      (stateAfter K VT VO alpha beta beta_o c g u n).1.ns p k) := by
  obtain ⟨⟨hndk, hnkw, hnk, hntd, hnrs, hns⟩, hzr, hxr⟩ :=
    stateAfter_inv c K VT VO alpha beta beta_o g u n hK hVT hVO ha hb hbo hu hv
  set s := (stateAfter K VT VO alpha beta beta_o c g u n).1
  refine ⟨?_, ?_, ?_⟩
  · intro d
    rw [Finset.sum_congr rfl (fun k _ => hndk d k), hntd d]
    exact sum_ndkOf c s.z d K (fun j => hzr d j)
  · intro k
    rw [Finset.sum_congr rfl (fun w _ => hnkw k w), hnk k]
    exact sum_nkwOf c s.z k VT
      (fun d i hd hi => valid_twId_lt c VT VO hv d i hd hi)
  · intro p k
    rw [Finset.sum_congr rfl (fun w _ => hnrs p k w), hns p k]
    exact sum_nrsOf c s.x p k VO
      (fun d i hd hi => valid_owId_lt c VT VO hv d i hd hi)

theorem witCorpus_valid : ValidCorpus witCorpus 1 1 := by
  refine ⟨?_, ?_⟩
  · intro d hd
    have hd0 : d = 0 := by
      simpa [witCorpus] using hd
    subst hd0
    refine ⟨?_, ?_, ?_, ?_⟩ <;> simp [docAt, witCorpus, witDoc]
  · intro d1 d2 h1 h2 hne
    exfalso
    simp [witCorpus] at h1 h2
    omega

/-- Witness for C1 on the one-document fixture corpus with one topic word
and one opinion word, `nTopics = VT = VO = 1`, unit hyperparameters,
constant draw streams, after one sweep. -/
theorem C1_count_invariants_witness :
    ((∑ k ∈ Finset.range 1,
        (stateAfter 1 1 1 1 1 1 witCorpus gConst uHalf 1).1.ndk 0 k) =
      (stateAfter 1 1 1 1 1 1 witCorpus gConst uHalf 1).1.ntd 0) ∧
    ((∑ w ∈ Finset.range 1,
        (stateAfter 1 1 1 1 1 1 witCorpus gConst uHalf 1).1.nkw 0 w) =
      (stateAfter 1 1 1 1 1 1 witCorpus gConst uHalf 1).1.nk 0) ∧
    ((∑ w ∈ Finset.range 1,
        (stateAfter 1 1 1 1 1 1 witCorpus gConst uHalf 1).1.nrs 0 0 w) =
      (stateAfter 1 1 1 1 1 1 witCorpus gConst uHalf 1).1.ns 0 0) :=
  ⟨(C1_count_invariants witCorpus 1 1 1 1 1 1 gConst uHalf 1 (by decide)
      (by decide) (by decide) (by norm_num) (by norm_num) (by norm_num)
      witCorpus_valid
      (fun t => ⟨by norm_num [uHalf], by norm_num [uHalf]⟩)).1 0,
   (C1_count_invariants witCorpus 1 1 1 1 1 1 gConst uHalf 1 (by decide)
      (by decide) (by decide) (by norm_num) (by norm_num) (by norm_num)
      witCorpus_valid
      (fun t => ⟨by norm_num [uHalf], by norm_num [uHalf]⟩)).2.1 0,
   (C1_count_invariants witCorpus 1 1 1 1 1 1 gConst uHalf 1 (by decide)
      (by decide) (by decide) (by norm_num) (by norm_num) (by norm_num)
      witCorpus_valid
      (fun t => ⟨by norm_num [uHalf], by norm_num [uHalf]⟩)).2.2 0 0⟩

theorem find?_iterWrites_theta (K VT VO : ℕ) (alpha beta beta_o : ℚ)
    (c : Corpus) (g : ℕ → ℕ) (u : ℕ → ℚ) (t : ℕ) :
    (iterWrites K VT VO alpha beta beta_o c g u t).find?
        (fun e => decide (e.1 = (ParamName.theta, t))) =
      some ((ParamName.theta, t),
        thetaSnap K VT VO alpha beta beta_o c g u t) := by
  simp [iterWrites, List.find?]

theorem find?_iterWrites_phiTopic (K VT VO : ℕ) (alpha beta beta_o : ℚ)
    (c : Corpus) (g : ℕ → ℕ) (u : ℕ → ℚ) (t : ℕ) :
    (iterWrites K VT VO alpha beta beta_o c g u t).find?
        (fun e => decide (e.1 = (ParamName.phiTopic, t))) =
      some ((ParamName.phiTopic, t),
        phiTopicSnap K VT VO alpha beta beta_o c g u t) := by
  simp [iterWrites, List.find?]

theorem find?_phiOpinion_map (K VT VO : ℕ) (alpha beta beta_o : ℚ)
    (c : Corpus) (g : ℕ → ℕ) (u : ℕ → ℚ) (t : ℕ) (nP p : ℕ) (hp : p < nP) :
    ((List.range nP).map
        (fun q => ((ParamName.phiOpinion q, t),
          phiOpinionSnap K VT VO alpha beta beta_o c g u q t))).find?
        (fun e => decide (e.1 = (ParamName.phiOpinion p, t))) =
      some ((ParamName.phiOpinion p, t),
        phiOpinionSnap K VT VO alpha beta beta_o c g u p t) := by
  induction nP with
  | zero => omega
  | succ n ih =>
      rw [List.range_succ, List.map_append, List.find?_append]
      by_cases hpn : p < n
      · rw [ih hpn]
        rfl
      · have hpn' : p = n := by omega
        subst hpn'
        have hnone : ((List.range p).map
            (fun q => ((ParamName.phiOpinion q, t),
              phiOpinionSnap K VT VO alpha beta beta_o c g u q t))).find?
            (fun e => decide (e.1 = (ParamName.phiOpinion p, t))) = none := by
          rw [List.find?_eq_none]
          intro a ha
          rcases List.mem_map.mp ha with ⟨q, hq, rfl⟩
          have : q < p := List.mem_range.mp hq
          simp only [decide_eq_true_eq]
          intro hc
          have : ParamName.phiOpinion q = ParamName.phiOpinion p :=
            congrArg Prod.fst hc
          injection this with h'
          omega
        rw [hnone]
        simp [List.find?]

theorem find?_iterWrites_phiOpinion (K VT VO : ℕ) (alpha beta beta_o : ℚ)
    (c : Corpus) (g : ℕ → ℕ) (u : ℕ → ℚ) (t p : ℕ) (hp : p < c.nPersp) :
    (iterWrites K VT VO alpha beta beta_o c g u t).find?
        (fun e => decide (e.1 = (ParamName.phiOpinion p, t))) =
      some ((ParamName.phiOpinion p, t),
        phiOpinionSnap K VT VO alpha beta beta_o c g u p t) := by
  unfold iterWrites
  have h1 : (decide ((ParamName.theta, t) = (ParamName.phiOpinion p, t))) =
      false := by simp
  have h2 : (decide ((ParamName.phiTopic, t) = (ParamName.phiOpinion p, t))) =
      false := by simp
  simp only [List.find?, h1, h2]
  exact find?_phiOpinion_map K VT VO alpha beta beta_o c g u t c.nPersp p hp

theorem mem_iterWrites_snd (K VT VO : ℕ) (alpha beta beta_o : ℚ)
    (c : Corpus) (g : ℕ → ℕ) (u : ℕ → ℚ) (t : ℕ) :
    ∀ e ∈ iterWrites K VT VO alpha beta beta_o c g u t, e.1.2 = t := by
  intro e he
  unfold iterWrites at he
  rcases List.mem_cons.mp he with rfl | he
  · rfl
  rcases List.mem_cons.mp he with rfl | he
  · rfl
  rcases List.mem_map.mp he with ⟨q, _, rfl⟩
  rfl

theorem mem_persisted_snd (K VT VO : ℕ) (alpha beta beta_o : ℚ)
    (c : Corpus) (g : ℕ → ℕ) (u : ℕ → ℚ) (n : ℕ) :
    ∀ e ∈ persistedStore K VT VO alpha beta beta_o c g u n, e.1.2 < n := by
  induction n with
  | zero => intro e he; simp [persistedStore] at he
  | succ m ih =>
      intro e he
      unfold persistedStore at he
      rcases List.mem_append.mp he with he | he
      · exact Nat.lt_succ_of_lt (ih e he)
      · rw [mem_iterWrites_snd K VT VO alpha beta beta_o c g u m e he]
        exact Nat.lt_succ_self m

theorem find?_persisted (K VT VO : ℕ) (alpha beta beta_o : ℚ)
    (c : Corpus) (g : ℕ → ℕ) (u : ℕ → ℚ) (n t : ℕ) (ht : t < n)
    (name : ParamName) (a : (ParamName × ℕ) × Mat)
    (h : (iterWrites K VT VO alpha beta beta_o c g u t).find?
      (fun e => decide (e.1 = (name, t))) = some a) :
    (persistedStore K VT VO alpha beta beta_o c g u n).find?
      (fun e => decide (e.1 = (name, t))) = some a := by
  induction n with
  | zero => omega
  | succ m ih =>
      unfold persistedStore
      rw [List.find?_append]
      by_cases htm : t < m
      · rw [ih htm]
        rfl
      · have ht' : t = m := by omega
        subst ht'
        have hnone : (persistedStore K VT VO alpha beta beta_o c g u t).find?
            (fun e => decide (e.1 = (name, t))) = none := by
          rw [List.find?_eq_none]
          intro e he
          have := mem_persisted_snd K VT VO alpha beta beta_o c g u t e he
          simp only [decide_eq_true_eq]
          intro hc
          rw [hc] at this
          simp at this
        rw [hnone, h]
        rfl

theorem readStore_persisted_theta (K VT VO : ℕ) (alpha beta beta_o : ℚ)
    (c : Corpus) (g : ℕ → ℕ) (u : ℕ → ℚ) (n t : ℕ) (ht : t < n) :
    readStore (persistedStore K VT VO alpha beta beta_o c g u n)
        (ParamName.theta, t) =
      thetaSnap K VT VO alpha beta beta_o c g u t := by
  unfold readStore
  rw [find?_persisted K VT VO alpha beta beta_o c g u n t ht ParamName.theta _
    (find?_iterWrites_theta K VT VO alpha beta beta_o c g u t)]

theorem readStore_persisted_phiTopic (K VT VO : ℕ) (alpha beta beta_o : ℚ)
    (c : Corpus) (g : ℕ → ℕ) (u : ℕ → ℚ) (n t : ℕ) (ht : t < n) :
    readStore (persistedStore K VT VO alpha beta beta_o c g u n)
        (ParamName.phiTopic, t) =
      phiTopicSnap K VT VO alpha beta beta_o c g u t := by
  unfold readStore
  rw [find?_persisted K VT VO alpha beta beta_o c g u n t ht
    ParamName.phiTopic _
    (find?_iterWrites_phiTopic K VT VO alpha beta beta_o c g u t)]

theorem readStore_persisted_phiOpinion (K VT VO : ℕ) (alpha beta beta_o : ℚ)
    (c : Corpus) (g : ℕ → ℕ) (u : ℕ → ℚ) (n t p : ℕ) (ht : t < n)
    (hp : p < c.nPersp) :
    readStore (persistedStore K VT VO alpha beta beta_o c g u n)
        (ParamName.phiOpinion p, t) =
      phiOpinionSnap K VT VO alpha beta beta_o c g u p t := by
  unfold readStore
  rw [find?_persisted K VT VO alpha beta beta_o c g u n t ht
    (ParamName.phiOpinion p) _
    (find?_iterWrites_phiOpinion K VT VO alpha beta beta_o c g u t p hp)]

/-- **C8.** With the same draw streams (seed) and the same iteration
count, `run()` in in-memory mode (`out_dir` unset) and `run()` in
persisted mode (`out_dir` set, per-iteration snapshots written to the
keyed store modelled from design §6 and read back by `load_parameters`)
produce identical final tables: the element-wise mean over the `nIter`
per-iteration snapshots of `theta`, `phi_topic`, and each perspective's
`phi_opinion`.  With the store modelled as exact, the two modes agree
exactly (hence within any floating-point tolerance). -/
theorem C8_run_modes_agree (K VT VO : ℕ) (alpha beta beta_o : ℚ)
    (c : Corpus) (g : ℕ → ℕ) (u : ℕ → ℚ) (nIter : ℕ) :
    (∀ i j, runMemTheta K VT VO alpha beta beta_o c g u nIter i j =
      runPersistTheta K VT VO alpha beta beta_o c g u nIter i j) ∧
    (∀ i j, runMemPhiTopic K VT VO alpha beta beta_o c g u nIter i j =
      runPersistPhiTopic K VT VO alpha beta beta_o c g u nIter i j) ∧
    (∀ p, p < c.nPersp → ∀ i j,
      runMemPhiOpinion K VT VO alpha beta beta_o c g u nIter p i j =
      runPersistPhiOpinion K VT VO alpha beta beta_o c g u nIter p i j) := by
  refine ⟨?_, ?_, ?_⟩
  · intro i j
    unfold runMemTheta runPersistTheta load_parameters meanMat
    congr 1
    apply Finset.sum_congr rfl
    intro t ht
    simp only []
    rw [readStore_persisted_theta K VT VO alpha beta beta_o c g u nIter t
      (Finset.mem_range.mp ht)]
  · intro i j
    unfold runMemPhiTopic runPersistPhiTopic load_parameters meanMat
    congr 1
    apply Finset.sum_congr rfl
    intro t ht
    simp only []
    rw [readStore_persisted_phiTopic K VT VO alpha beta beta_o c g u nIter t
      (Finset.mem_range.mp ht)]
  · intro p hp i j
    unfold runMemPhiOpinion runPersistPhiOpinion load_parameters meanMat
    congr 1
    apply Finset.sum_congr rfl
    intro t ht
    simp only []
    rw [readStore_persisted_phiOpinion K VT VO alpha beta beta_o c g u nIter
      t p (Finset.mem_range.mp ht) hp]

/-- Witness for C8 on the fixture corpus (one perspective), one iteration:
the three final tables agree entrywise at `(0,0)` between the two modes. -/
theorem C8_run_modes_agree_witness :
    runMemTheta 1 1 1 1 1 1 witCorpus gConst uHalf 1 0 0 =
      runPersistTheta 1 1 1 1 1 1 witCorpus gConst uHalf 1 0 0 ∧
    runMemPhiTopic 1 1 1 1 1 1 witCorpus gConst uHalf 1 0 0 =
      runPersistPhiTopic 1 1 1 1 1 1 witCorpus gConst uHalf 1 0 0 ∧
    runMemPhiOpinion 1 1 1 1 1 1 witCorpus gConst uHalf 1 0 0 0 =
      runPersistPhiOpinion 1 1 1 1 1 1 witCorpus gConst uHalf 1 0 0 0 :=
  ⟨(C8_run_modes_agree 1 1 1 1 1 1 witCorpus gConst uHalf 1).1 0 0,
   (C8_run_modes_agree 1 1 1 1 1 1 witCorpus gConst uHalf 1).2.1 0 0,
   (C8_run_modes_agree 1 1 1 1 1 1 witCorpus gConst uHalf 1).2.2 0
     (by decide) 0 0⟩
